import Mathlib

/-!
Shallow embedding of the content-preparation pipeline of the
obsidian-journal-reflect plugin (journal-Utils and journal-Plugin), with
theorems settling the specification claims.

JavaScript strings are modelled as lists of characters (`Str`).  Fallible
host operations (file reads, metadata-cache lookups, link resolution) are
modelled as `Option`-valued fields of an explicit `Vault` record; a thrown
JavaScript `Error` is modelled with `Except`.
-/

/-- Model of a JavaScript string: a list of UTF-16-ish characters. -/
abbrev Str := List Char

/-- Characters treated as whitespace by the JS `trim`/`\s` operations used here. -/
def isSpaceChar (c : Char) : Bool :=
  c = ' ' || c = '\t' || c = '\n' || c = '\r' || c = '\x0b' || c = '\x0c'

/-- Model of JS `String.prototype.trimStart`. -/
def jsTrimStart (s : Str) : Str := s.dropWhile isSpaceChar

/-- Model of JS `String.prototype.trimEnd`. -/
def jsTrimEnd (s : Str) : Str := (s.reverse.dropWhile isSpaceChar).reverse

/-- Model of JS `String.prototype.trim`. -/
def jsTrim (s : Str) : Str := jsTrimEnd (jsTrimStart s)

/-- Model of JS `s.split(sep)` for a single-character separator. -/
def splitOnChar (sep : Char) : Str → List Str
  | [] => [[]]
  | c :: rest =>
    if c = sep then [] :: splitOnChar sep rest
    else
      match splitOnChar sep rest with
      | [] => [[c]]
      | h :: t => (c :: h) :: t

/-- Model of JS `Array.prototype.join(sep)` on a list of strings. -/
def joinWith (sep : Str) : List Str → Str
  | [] => []
  | [l] => l
  | l :: ls => l ++ sep ++ joinWith sep ls

/-- First-match association-list lookup, modelling JS object / `Map` access. -/
def lookupEntry {β : Type} (k : Str) : List (Str × β) → Option β
  | [] => none
  | (k', v) :: rest => if k' = k then some v else lookupEntry k rest

/-- source `journal-Utils.ts` `parseLinkReference`: split a link at the first
`#` into path and optional subpath (`link.indexOf("#")` / `substring`). -/
def parseLinkReference (link : Str) : Str × Option Str :=
  if '#' ∈ link then
    (link.takeWhile (· ≠ '#'), some ((link.dropWhile (· ≠ '#')).tail))
  else
    (link, none)

/-- source `journal-Utils.ts` `formatAsBlockquote`: each line gains a `"> "`
marker; an optional callout heading is unshifted first. -/
def formatAsBlockquote (content : Str) (calloutHeading : Option Str) : Str :=
  let lines := (splitOnChar '\n' content).map (fun line => "> ".toList ++ line)
  let lines :=
    match calloutHeading with
    | some h => if h.isEmpty then lines else ("> ".toList ++ h) :: lines
    | none => lines
  joinWith "\n".toList lines

/-- source `journal-Utils.ts` `formatAsEmbedBlockquote`: lines are prefixed with
`depth+1` repetitions of `>` plus a space, below a `[!calloutType] linkTarget`
header with the same marker run. -/
def formatAsEmbedBlockquote (content : Str) (linkTarget : Str) (depth : Nat)
    (calloutType : Str) : Str :=
  let pfx := List.replicate (depth + 1) '>'
  let lines :=
    joinWith "\n".toList
      ((splitOnChar '\n' content).map (fun line => pfx ++ ' ' :: line))
  let calloutHeader := pfx ++ " [!".toList ++ calloutType ++ "] ".toList ++ linkTarget
  calloutHeader ++ '\n' :: lines

/-- `formatAsEmbedBlockquote` with its default `calloutType = "embedded-note"`. -/
def formatAsEmbedBlockquoteD (content : Str) (linkTarget : Str) (depth : Nat) : Str :=
  formatAsEmbedBlockquote content linkTarget depth "embedded-note".toList

/-- Length of `dropWhile` never exceeds the input length. -/
theorem dropWhile_length_le (p : Char → Bool) (l : Str) :
    (l.dropWhile p).length ≤ l.length := by
  induction l with
  | nil => simp
  | cons c rest ih =>
    by_cases h : p c
    · simpa [List.dropWhile, h] using Nat.le_succ_of_le ih
    · simp [List.dropWhile, h]

/-- Quote depth of a line: the number of `>` characters inside the maximal
leading run matched by the JS regex `^(?:>\s*)*`. -/
def quoteDepth : Str → Nat
  | [] => 0
  | c :: rest =>
    if c = '>' then 1 + quoteDepth (rest.dropWhile isSpaceChar)
    else 0
termination_by s => s.length
decreasing_by
  simp only [List.length_cons]
  exact Nat.lt_succ_of_le (dropWhile_length_le _ _)

/-- Consume the maximal leading run matched by the JS regex `(?:>\s*)*`. -/
def dropQuoteMarkers : Str → Str
  | [] => []
  | c :: rest =>
    if c = '>' then dropQuoteMarkers (rest.dropWhile isSpaceChar)
    else c :: rest
termination_by s => s.length
decreasing_by
  simp only [List.length_cons]
  exact Nat.lt_succ_of_le (dropWhile_length_le _ _)

/-- JS `\w` character class (ASCII letters, digits, underscore). -/
def isWordChar (c : Char) : Bool := c.isAlphanum || c = '_'

/-- Group 2 of the JS match `line.match(/^((?:>\s*)+)\[!(\w+)\]/)`: the callout
type name, when the line is a callout header (at least one leading `>` marker,
then `[!`, one or more word characters, then `]`). -/
def calloutTypeOf (line : Str) : Option Str :=
  match line with
  | '>' :: _ =>
    match dropQuoteMarkers line with
    | '[' :: '!' :: t =>
      let w := t.takeWhile isWordChar
      let r := t.dropWhile isWordChar
      if w ≠ [] ∧ r.headI = ']' ∧ r ≠ [] then some w else none
    | _ => none
  | _ => none

/-- Model of JS `String.prototype.toLowerCase` on the characters used here. -/
def jsToLower (s : Str) : Str := s.map Char.toLower

/-- Scanner state of the `filterCallouts` loop: `skipDepth` (`none` models the
JS sentinel `-1`), the `previousLineBlank` flag, and the collected result. -/
structure ScanState where
  skipDepth : Option Nat
  prevBlank : Bool
  result : List Str
deriving Repr, DecidableEq

/-- Tail of a `filterCallouts` loop iteration: the exclusion check on a callout
header (`if (calloutMatch) { ... }`) followed by `result.push(line)`. -/
def checkLine (types : List Str) (depth : Nat) (isBlank : Bool) (line : Str)
    (st : ScanState) : ScanState :=
  match calloutTypeOf line with
  | some ty =>
    if types.any (fun t => jsToLower t = jsToLower ty) then
      { skipDepth := some depth, prevBlank := isBlank, result := st.result }
    else
      { skipDepth := st.skipDepth, prevBlank := isBlank, result := st.result ++ [line] }
  | none =>
    { skipDepth := st.skipDepth, prevBlank := isBlank, result := st.result ++ [line] }

/-- One iteration of the `for (const line of lines)` loop in source
`journal-Utils.ts` `filterCallouts`. -/
def filterStep (types : List Str) (st : ScanState) (line : Str) : ScanState :=
  let trimmed := jsTrimStart line
  let depth := quoteDepth trimmed
  let isBlank := decide (depth = 0) && (jsTrim line).isEmpty
  let cm := calloutTypeOf line
  match st.skipDepth with
  | some sd =>
    if sd < depth ∨ (depth = sd ∧ cm = none) then
      { st with prevBlank := isBlank }
    else if depth = sd ∧ cm ≠ none ∧ st.prevBlank = false then
      { st with prevBlank := isBlank }
    else
      checkLine types depth isBlank line { st with skipDepth := none }
  | none => checkLine types depth isBlank line st

/-- The excluded-types list of `filterCallouts`: split on newlines, trim each
entry, keep the non-empty ones. -/
def typesOf (calloutTypes : Str) : List Str :=
  ((splitOnChar '\n' calloutTypes).map jsTrim).filter (fun t => t.length > 0)

/-- Body of the `filterCallouts` scan once the excluded-types list is fixed:
fold the per-line step over the split lines and re-join the kept lines. -/
def filterCalloutsCore (content : Str) (types : List Str) : Str :=
  joinWith "\n".toList
    (((splitOnChar '\n' content).foldl (filterStep types) ⟨none, false, []⟩)).result

/-- source `journal-Utils.ts` `filterCallouts`: drop the lines that belong to
callouts of the excluded types. -/
def filterCallouts (content : Str) (calloutTypes : Str) : Str :=
  if (jsTrim calloutTypes).isEmpty then content
  else
    if typesOf calloutTypes = [] then content
    else filterCalloutsCore content (typesOf calloutTypes)

/-! ### Basic lemmas about the string model -/

theorem splitOnChar_ne_nil (sep : Char) (s : Str) : splitOnChar sep s ≠ [] := by
  induction s with
  | nil => simp [splitOnChar]
  | cons c rest ih =>
    by_cases h : c = sep
    · simp [splitOnChar, h]
    · simp only [splitOnChar, if_neg h]
      cases hs : splitOnChar sep rest with
      | nil => simp
      | cons h' t => simp

theorem not_mem_of_mem_splitOnChar {sep : Char} {s : Str} {l : Str}
    (hl : l ∈ splitOnChar sep s) : sep ∉ l := by
  induction s generalizing l with
  | nil =>
    simp [splitOnChar] at hl
    simp [hl]
  | cons c rest ih =>
    by_cases h : c = sep
    · simp only [splitOnChar, if_pos h, List.mem_cons] at hl
      rcases hl with rfl | hl
      · simp
      · exact ih hl
    · simp only [splitOnChar, if_neg h] at hl
      cases hs : splitOnChar sep rest with
      | nil => exact absurd hs (splitOnChar_ne_nil sep rest)
      | cons h' t =>
        rw [hs] at hl
        simp only [List.mem_cons] at hl
        rcases hl with rfl | hl
        · intro hmem
          simp only [List.mem_cons] at hmem
          rcases hmem with rfl | hmem
          · exact h rfl
          · exact ih (hs ▸ List.mem_cons_self h' t) hmem
        · exact ih (hs ▸ List.mem_cons_of_mem h' hl)

theorem splitOnChar_of_not_mem {sep : Char} {l : Str} (h : sep ∉ l) :
    splitOnChar sep l = [l] := by
  induction l with
  | nil => simp [splitOnChar]
  | cons c rest ih =>
    simp only [List.mem_cons, not_or] at h
    simp only [splitOnChar, if_neg (Ne.symm h.1)]
    rw [ih h.2]

theorem splitOnChar_append_cons {sep : Char} {l : Str} (s : Str) (h : sep ∉ l) :
    splitOnChar sep (l ++ sep :: s) = l :: splitOnChar sep s := by
  induction l with
  | nil => simp [splitOnChar]
  | cons c rest ih =>
    simp only [List.mem_cons, not_or] at h
    simp only [List.cons_append, splitOnChar, if_neg (Ne.symm h.1)]
    rw [show rest.append (sep :: s) = rest ++ sep :: s from rfl, ih h.2]

theorem splitOnChar_joinWith {sep : Char} {ls : List Str} (hne : ls ≠ [])
    (h : ∀ l ∈ ls, sep ∉ l) :
    splitOnChar sep (joinWith [sep] ls) = ls := by
  induction ls with
  | nil => exact absurd rfl hne
  | cons l rest ih =>
    cases rest with
    | nil => exact splitOnChar_of_not_mem (h l (List.mem_cons_self l []))
    | cons l2 rest2 =>
      have hjoin : joinWith [sep] (l :: l2 :: rest2) = l ++ sep :: joinWith [sep] (l2 :: rest2) := by
        simp [joinWith]
      rw [hjoin, splitOnChar_append_cons _ (h l (List.mem_cons_self l _))]
      rw [ih (by simp) (fun x hx => h x (List.mem_cons_of_mem l hx))]

theorem joinWith_singleton (sep : Str) (l : Str) : joinWith sep [l] = l := rfl

theorem takeWhile_append_all {p : Char → Bool} {a : Str} (b : Str)
    (h : ∀ c ∈ a, p c = true) : (a ++ b).takeWhile p = a ++ b.takeWhile p := by
  induction a with
  | nil => simp
  | cons c rest ih =>
    have hc := h c (List.mem_cons_self c rest)
    simp [List.takeWhile_cons, hc, ih (fun x hx => h x (List.mem_cons_of_mem c hx))]

theorem dropWhile_append_all {p : Char → Bool} {a : Str} (b : Str)
    (h : ∀ c ∈ a, p c = true) : (a ++ b).dropWhile p = b.dropWhile p := by
  induction a with
  | nil => simp
  | cons c rest ih =>
    have hc := h c (List.mem_cons_self c rest)
    simp [List.dropWhile_cons, hc, ih (fun x hx => h x (List.mem_cons_of_mem c hx))]

/-- C9: `parseLinkReference` is total; on inputs without `#` it returns the
whole input as the path with no subpath, and on `a#b` (no `#` in `a`) it
splits at the first `#` into path `a` and subpath `b`. -/
theorem parseLinkReference_correct :
    (∀ s : Str, '#' ∉ s → parseLinkReference s = (s, none)) ∧
    (∀ a b : Str, '#' ∉ a → parseLinkReference (a ++ '#' :: b) = (a, some b)) := by
  constructor
  · intro s hs
    simp [parseLinkReference, hs]
  · intro a b ha
    have hmem : '#' ∈ a ++ '#' :: b := List.mem_append_right a (List.mem_cons_self _ _)
    have hall : ∀ c ∈ a, (decide (c ≠ '#')) = true := by
      intro c hc
      simp only [decide_eq_true_eq]
      intro hceq
      exact ha (hceq ▸ hc)
    simp only [parseLinkReference, if_pos hmem]
    rw [takeWhile_append_all _ hall, dropWhile_append_all _ hall]
    simp

/-- Witness for C9 at concrete inputs. -/
theorem parseLinkReference_correct_witness :
    parseLinkReference "abc".toList = ("abc".toList, none) ∧
    parseLinkReference "a#b".toList = ("a".toList, some "b".toList) := by
  refine ⟨parseLinkReference_correct.1 _ (by decide), ?_⟩
  have h := parseLinkReference_correct.2 "a".toList "b".toList (by decide)
  simpa using h

/-! ### Idempotence of filterCallouts (C4) -/

/-- A line is an excluded callout header: it matches the callout-header pattern
and its type name is (case-insensitively) among the excluded types. -/
def isExcludedHeader (types : List Str) (line : Str) : Bool :=
  match calloutTypeOf line with
  | some ty => types.any (fun t => jsToLower t = jsToLower ty)
  | none => false

theorem isExcludedHeader_of_some {types : List Str} {ty line : Str}
    (hcm : calloutTypeOf line = some ty) :
    isExcludedHeader types line = types.any (fun t => jsToLower t = jsToLower ty) := by
  unfold isExcludedHeader
  rw [hcm]

theorem isExcludedHeader_of_none {types : List Str} {line : Str}
    (hcm : calloutTypeOf line = none) : isExcludedHeader types line = false := by
  unfold isExcludedHeader
  rw [hcm]

theorem checkLine_not_excluded (types : List Str) (d : Nat) (b : Bool) (line : Str)
    (st : ScanState) (h : isExcludedHeader types line = false) :
    checkLine types d b line st =
      { skipDepth := st.skipDepth, prevBlank := b, result := st.result ++ [line] } := by
  unfold checkLine
  cases hcm : calloutTypeOf line with
  | none => rfl
  | some ty =>
    rw [isExcludedHeader_of_some hcm] at h
    simp [h]

theorem checkLine_excluded (types : List Str) (d : Nat) (b : Bool) (line : Str)
    (st : ScanState) (h : isExcludedHeader types line = true) :
    checkLine types d b line st =
      { skipDepth := some d, prevBlank := b, result := st.result } := by
  unfold checkLine
  cases hcm : calloutTypeOf line with
  | none => rw [isExcludedHeader_of_none hcm] at h; exact absurd h (by simp)
  | some ty =>
    rw [isExcludedHeader_of_some hcm] at h
    simp [h]

theorem filterStep_none (types : List Str) (line : Str) (st : ScanState)
    (hsd : st.skipDepth = none) :
    filterStep types st line =
      checkLine types (quoteDepth (jsTrimStart line))
        (decide (quoteDepth (jsTrimStart line) = 0) && (jsTrim line).isEmpty) line st := by
  unfold filterStep
  rw [hsd]

theorem filterStep_some (types : List Str) (line : Str) (st : ScanState) (sd : Nat)
    (hsd : st.skipDepth = some sd) :
    filterStep types st line =
      (if sd < quoteDepth (jsTrimStart line) ∨
          (quoteDepth (jsTrimStart line) = sd ∧ calloutTypeOf line = none) then
        { st with prevBlank :=
            decide (quoteDepth (jsTrimStart line) = 0) && (jsTrim line).isEmpty }
      else if quoteDepth (jsTrimStart line) = sd ∧ calloutTypeOf line ≠ none ∧
          st.prevBlank = false then
        { st with prevBlank :=
            decide (quoteDepth (jsTrimStart line) = 0) && (jsTrim line).isEmpty }
      else
        checkLine types (quoteDepth (jsTrimStart line))
          (decide (quoteDepth (jsTrimStart line) = 0) && (jsTrim line).isEmpty) line
          { st with skipDepth := none }) := by
  unfold filterStep
  rw [hsd]

theorem filterStep_result_sub (types : List Str) (st : ScanState) (line : Str) :
    (filterStep types st line).result = st.result ∨
    ((filterStep types st line).result = st.result ++ [line] ∧
      isExcludedHeader types line = false) := by
  have hcheck : ∀ st' : ScanState, st'.result = st.result →
      (checkLine types (quoteDepth (jsTrimStart line))
          (decide (quoteDepth (jsTrimStart line) = 0) && (jsTrim line).isEmpty) line st').result
        = st.result ∨
      ((checkLine types (quoteDepth (jsTrimStart line))
          (decide (quoteDepth (jsTrimStart line) = 0) && (jsTrim line).isEmpty) line st').result
        = st.result ++ [line] ∧ isExcludedHeader types line = false) := by
    intro st' hres
    by_cases hex : isExcludedHeader types line = true
    · rw [checkLine_excluded types _ _ line st' hex]
      exact Or.inl hres
    · rw [checkLine_not_excluded types _ _ line st' (by simpa using hex)]
      exact Or.inr ⟨by rw [hres], by simpa using hex⟩
  cases hsd : st.skipDepth with
  | some sd =>
    rw [filterStep_some types line st sd hsd]
    by_cases h1 : sd < quoteDepth (jsTrimStart line) ∨
        (quoteDepth (jsTrimStart line) = sd ∧ calloutTypeOf line = none)
    · rw [if_pos h1]
      exact Or.inl rfl
    · rw [if_neg h1]
      by_cases h2 : quoteDepth (jsTrimStart line) = sd ∧
          ¬calloutTypeOf line = none ∧ st.prevBlank = false
      · rw [if_pos h2]
        exact Or.inl rfl
      · rw [if_neg h2]
        exact hcheck { st with skipDepth := none } rfl
  | none =>
    rw [filterStep_none types line st hsd]
    exact hcheck st rfl

theorem foldl_filterStep_result_mem (types : List Str) :
    ∀ (lines : List Str) (st : ScanState) (l : Str),
      l ∈ (lines.foldl (filterStep types) st).result →
      l ∈ st.result ∨ (l ∈ lines ∧ isExcludedHeader types l = false) := by
  intro lines
  induction lines with
  | nil =>
    intro st l h
    exact Or.inl h
  | cons line rest ih =>
    intro st l h
    simp only [List.foldl_cons] at h
    rcases ih _ l h with hmem | ⟨hl, hexf⟩
    · rcases filterStep_result_sub types st line with heq | ⟨heq, hex2⟩
      · rw [heq] at hmem
        exact Or.inl hmem
      · rw [heq] at hmem
        rcases List.mem_append.1 hmem with hm1 | hm2
        · exact Or.inl hm1
        · simp only [List.mem_singleton] at hm2
          subst hm2
          exact Or.inr ⟨List.mem_cons_self _ _, hex2⟩
    · exact Or.inr ⟨List.mem_cons_of_mem _ hl, hexf⟩

theorem foldl_filterStep_keep_all (types : List Str) :
    ∀ (lines : List Str) (b : Bool) (acc : List Str),
      (∀ l ∈ lines, isExcludedHeader types l = false) →
      ∃ b', lines.foldl (filterStep types) ⟨none, b, acc⟩ = ⟨none, b', acc ++ lines⟩ := by
  intro lines
  induction lines with
  | nil =>
    intro b acc _
    exact ⟨b, by simp⟩
  | cons line rest ih =>
    intro b acc h
    simp only [List.foldl_cons]
    rw [filterStep_none types line ⟨none, b, acc⟩ rfl,
      checkLine_not_excluded types _ _ line _ (h line (List.mem_cons_self _ _))]
    obtain ⟨b', hb⟩ := ih _ (acc ++ [line]) (fun l hl => h l (List.mem_cons_of_mem _ hl))
    refine ⟨b', ?_⟩
    rw [hb]
    simp

theorem filterCalloutsCore_fix (types : List Str) (R : List Str)
    (hex : ∀ l ∈ R, isExcludedHeader types l = false)
    (hnl : ∀ l ∈ R, '\n' ∉ l) :
    filterCalloutsCore (joinWith "\n".toList R) types = joinWith "\n".toList R := by
  unfold filterCalloutsCore
  cases R with
  | nil =>
    have hempty : joinWith "\n".toList ([] : List Str) = [] := rfl
    rw [hempty]
    have hsplit : splitOnChar '\n' ([] : Str) = [[]] := rfl
    rw [hsplit]
    obtain ⟨b', hb⟩ := foldl_filterStep_keep_all types [[]] false []
      (by intro l hl; simp at hl; subst hl; rfl)
    rw [hb]
    rfl
  | cons r0 rrest =>
    have hnl13 : ("\n".toList : Str) = ['\n'] := rfl
    rw [hnl13, splitOnChar_joinWith (by simp) hnl]
    obtain ⟨b', hb⟩ := foldl_filterStep_keep_all types (r0 :: rrest) false [] hex
    rw [hb]
    simp

theorem filterCalloutsCore_idem (c : Str) (types : List Str) :
    filterCalloutsCore (filterCalloutsCore c types) types = filterCalloutsCore c types := by
  have hmem := foldl_filterStep_result_mem types (splitOnChar '\n' c) ⟨none, false, []⟩
  apply filterCalloutsCore_fix
  · intro l hl
    rcases hmem l hl with hc | hc
    · exact absurd hc (List.not_mem_nil l)
    · exact hc.2
  · intro l hl
    rcases hmem l hl with hc | hc
    · exact absurd hc (List.not_mem_nil l)
    · exact not_mem_of_mem_splitOnChar hc.1

/-- C4: `filterCallouts` is idempotent: filtering already-filtered content with
the same excluded-types string returns the filtered content unchanged. -/
theorem filterCallouts_idempotent (c t : Str) :
    filterCallouts (filterCallouts c t) t = filterCallouts c t := by
  by_cases h1 : (jsTrim t).isEmpty = true
  · unfold filterCallouts
    rw [if_pos h1, if_pos h1]
  · by_cases h2 : typesOf t = []
    · unfold filterCallouts
      rw [if_neg h1, if_neg h1, if_pos h2, if_pos h2]
    · have hstep : ∀ x : Str, filterCallouts x t = filterCalloutsCore x (typesOf t) := by
        intro x
        unfold filterCallouts
        rw [if_neg h1, if_neg h2]
      rw [hstep, hstep]
      exact filterCalloutsCore_idem c (typesOf t)

/-! ### C3: filterCallouts refines the spec-described scanner -/

theorem mem_of_mem_splitOnChar {sep : Char} {s : Str} {c : Char} :
    ∀ {l : Str}, l ∈ splitOnChar sep s → c ∈ l → c ∈ s := by
  induction s with
  | nil =>
    intro l hl hc
    simp [splitOnChar] at hl
    subst hl
    simp at hc
  | cons a rest ih =>
    intro l hl hc
    by_cases h : a = sep
    · simp only [splitOnChar, if_pos h, List.mem_cons] at hl
      rcases hl with rfl | hl
      · simp at hc
      · exact List.mem_cons_of_mem _ (ih hl hc)
    · simp only [splitOnChar, if_neg h] at hl
      cases hs : splitOnChar sep rest with
      | nil => exact absurd hs (splitOnChar_ne_nil sep rest)
      | cons h0 t0 =>
        rw [hs] at hl
        simp only [List.mem_cons] at hl
        rcases hl with rfl | hl
        · rcases List.mem_cons.1 hc with rfl | hc2
          · exact List.mem_cons_self _ _
          · exact List.mem_cons_of_mem _ (ih (hs ▸ List.mem_cons_self h0 t0) hc2)
        · exact List.mem_cons_of_mem _ (ih (hs ▸ List.mem_cons_of_mem h0 hl) hc)

theorem jsTrim_eq_nil_iff (s : Str) :
    jsTrim s = [] ↔ ∀ c ∈ s, isSpaceChar c = true := by
  unfold jsTrim jsTrimEnd jsTrimStart
  constructor
  · intro h c hc
    have hrev : (s.dropWhile isSpaceChar).reverse.dropWhile isSpaceChar = [] := by
      have h2 := congrArg List.reverse h
      simpa using h2
    have hall : ∀ x ∈ (s.dropWhile isSpaceChar).reverse, isSpaceChar x = true :=
      List.dropWhile_eq_nil_iff.1 hrev
    have hall2 : ∀ x ∈ s.dropWhile isSpaceChar, isSpaceChar x = true := by
      intro x hx
      exact hall x (List.mem_reverse.2 hx)
    have hsplit := List.takeWhile_append_dropWhile (p := isSpaceChar) (l := s)
    rw [← hsplit] at hc
    rcases List.mem_append.1 hc with hc1 | hc2
    · exact List.mem_takeWhile_imp hc1
    · exact hall2 c hc2
  · intro h
    have hda : s.dropWhile isSpaceChar = [] := List.dropWhile_eq_nil_iff.2 h
    rw [hda]
    rfl

theorem typesOf_guard {t : Str} (hne : typesOf t ≠ []) :
    (jsTrim t).isEmpty = false := by
  obtain ⟨x, hx⟩ := List.exists_mem_of_ne_nil _ hne
  unfold typesOf at hx
  obtain ⟨hxm, hxlen⟩ := List.mem_filter.1 hx
  obtain ⟨l, hl, rfl⟩ := List.mem_map.1 hxm
  have hlen : jsTrim l ≠ [] := by
    intro hnil
    rw [hnil] at hxlen
    simp at hxlen
  have hnotall : ¬ ∀ c ∈ l, isSpaceChar c = true :=
    fun hall => hlen ((jsTrim_eq_nil_iff l).2 hall)
  push_neg at hnotall
  obtain ⟨c, hc, hcns⟩ := hnotall
  have hct : c ∈ t := mem_of_mem_splitOnChar hl hc
  have hres : jsTrim t ≠ [] := by
    intro hnil
    exact hcns (((jsTrim_eq_nil_iff t).1 hnil) c hct)
  simpa [List.isEmpty_iff] using hres

/-- Modelled from the spec (CalloutFilter, design section 4.4): scanning a line
normally opens exclusion when the line is a callout header of an excluded type
(dropping the header), and otherwise keeps the line.  Returns the new skip
state and whether the line is kept. -/
def specNormal (types : List Str) (depth : Nat) (line : Str) : Option Nat × Bool :=
  match calloutTypeOf line with
  | some ty =>
    if types.any (fun t => jsToLower t = jsToLower ty) then (some depth, false)
    else (none, true)
  | none => (none, true)

/-- Modelled from the spec (CalloutFilter, design section 4.4): while excluding
at depth `d`, every subsequent line at strictly greater depth is dropped; lines
at the same depth are dropped too, unless separated from the excluded block by
a blank line and themselves a new callout header, in which case scanning
resumes normally from that header; exiting to a shallower depth always ends
exclusion.  Result: (new skip depth, new previous-line-blank flag, keep?). -/
def specStep (types : List Str) (sk : Option Nat) (pb : Bool) (line : Str) :
    Option Nat × Bool × Bool :=
  let depth := quoteDepth (jsTrimStart line)
  let isBlank := decide (depth = 0) && (jsTrim line).isEmpty
  match sk with
  | some d =>
    if d < depth then (some d, isBlank, false)
    else if depth = d then
      if pb = true ∧ (calloutTypeOf line).isSome = true then
        ((specNormal types depth line).1, isBlank, (specNormal types depth line).2)
      else (some d, isBlank, false)
    else ((specNormal types depth line).1, isBlank, (specNormal types depth line).2)
  | none => ((specNormal types depth line).1, isBlank, (specNormal types depth line).2)

/-- The sequence of lines kept by the spec-described scanner. -/
def specScan (types : List Str) : List Str → Option Nat → Bool → List Str
  | [], _, _ => []
  | line :: rest, sk, pb =>
    let p := specStep types sk pb line
    (if p.2.2 = true then [line] else []) ++ specScan types rest p.1 p.2.1

theorem checkLine_eq_specNormal (types : List Str) (d : Nat) (b : Bool) (line : Str)
    (pb0 : Bool) (res : List Str) :
    checkLine types d b line ⟨none, pb0, res⟩ =
      ⟨(specNormal types d line).1, b,
        if (specNormal types d line).2 = true then res ++ [line] else res⟩ := by
  unfold checkLine specNormal
  cases hcm : calloutTypeOf line with
  | none => simp
  | some ty =>
    by_cases hex : types.any (fun t => jsToLower t = jsToLower ty) = true
    · simp [hex]
    · simp [hex]

theorem filterStep_eq_specStep (types : List Str) (st : ScanState) (line : Str) :
    filterStep types st line =
      ⟨(specStep types st.skipDepth st.prevBlank line).1,
       (specStep types st.skipDepth st.prevBlank line).2.1,
       if (specStep types st.skipDepth st.prevBlank line).2.2 = true then
         st.result ++ [line]
       else st.result⟩ := by
  obtain ⟨sk, pb, res⟩ := st
  cases sk with
  | none =>
    rw [filterStep_none types line ⟨none, pb, res⟩ rfl]
    simp only [specStep]
    exact checkLine_eq_specNormal types _ _ line pb res
  | some sd =>
    rw [filterStep_some types line ⟨some sd, pb, res⟩ sd rfl]
    simp only [specStep]
    by_cases hlt : sd < quoteDepth (jsTrimStart line)
    · rw [if_pos (Or.inl hlt), if_pos hlt]
      rfl
    · by_cases heq : quoteDepth (jsTrimStart line) = sd
      · by_cases hcm : calloutTypeOf line = none
        · rw [if_pos (Or.inr ⟨heq, hcm⟩), if_neg hlt, if_pos heq,
            if_neg (by simp [hcm])]
          rfl
        · have h1f : ¬(sd < quoteDepth (jsTrimStart line) ∨
              (quoteDepth (jsTrimStart line) = sd ∧ calloutTypeOf line = none)) := by
            simp [hlt, hcm]
          rw [if_neg h1f, if_neg hlt, if_pos heq]
          cases hpb : pb with
          | false =>
            rw [if_pos ⟨heq, hcm, rfl⟩, if_neg (by simp)]
            rfl
          | true =>
            have h2f : ¬(quoteDepth (jsTrimStart line) = sd ∧
                calloutTypeOf line ≠ none ∧ true = false) := by simp
            have hsome : (calloutTypeOf line).isSome = true := by
              rw [Option.isSome_iff_ne_none]
              exact hcm
            rw [if_neg h2f, if_pos ⟨rfl, hsome⟩]
            exact checkLine_eq_specNormal types _ _ line true res
      · have hgt : ¬ sd < quoteDepth (jsTrimStart line) := hlt
        have h1f : ¬(sd < quoteDepth (jsTrimStart line) ∨
            (quoteDepth (jsTrimStart line) = sd ∧ calloutTypeOf line = none)) := by
          simp [hgt, heq]
        have h2f : ¬(quoteDepth (jsTrimStart line) = sd ∧
            calloutTypeOf line ≠ none ∧ pb = false) := by
          simp [heq]
        rw [if_neg h1f, if_neg h2f, if_neg hlt, if_neg heq]
        exact checkLine_eq_specNormal types _ _ line pb res

theorem foldl_filterStep_eq_specScan (types : List Str) :
    ∀ (lines : List Str) (sk : Option Nat) (pb : Bool) (acc : List Str),
      (lines.foldl (filterStep types) ⟨sk, pb, acc⟩).result =
        acc ++ specScan types lines sk pb := by
  intro lines
  induction lines with
  | nil =>
    intro sk pb acc
    simp [specScan]
  | cons line rest ih =>
    intro sk pb acc
    simp only [List.foldl_cons]
    rw [filterStep_eq_specStep types ⟨sk, pb, acc⟩ line]
    simp only [specScan]
    by_cases hk : (specStep types sk pb line).2.2 = true
    · rw [if_pos hk]
      rw [ih _ _ (acc ++ [line])]
      simp [hk]
    · rw [if_neg hk]
      rw [ih _ _ acc]
      simp [hk]

theorem specScan_sublist (types : List Str) :
    ∀ (lines : List Str) (sk : Option Nat) (pb : Bool),
      List.Sublist (specScan types lines sk pb) lines := by
  intro lines
  induction lines with
  | nil =>
    intro sk pb
    simp [specScan]
  | cons line rest ih =>
    intro sk pb
    simp only [specScan]
    by_cases hk : (specStep types sk pb line).2.2 = true
    · rw [if_pos hk]
      exact List.Sublist.cons₂ line (ih _ _)
    · rw [if_neg hk]
      simp only [List.nil_append]
      exact List.Sublist.cons line (ih _ _)

/-- C3: for every content string and every non-empty excluded-types list,
`filterCallouts` removes exactly the lines that the spec-described skip state
machine drops: the output is the join of the lines kept by the spec scanner,
and those kept lines form a subsequence of the input lines, so every line that
is not part of an excluded callout block (including content nested inside
siblings of excluded callouts) appears unchanged in the output. -/
theorem filterCallouts_removes_only_excluded (content calloutTypes : Str)
    (hne : typesOf calloutTypes ≠ []) :
    filterCallouts content calloutTypes =
      joinWith "\n".toList
        (specScan (typesOf calloutTypes) (splitOnChar '\n' content) none false) ∧
    List.Sublist
      (specScan (typesOf calloutTypes) (splitOnChar '\n' content) none false)
      (splitOnChar '\n' content) := by
  constructor
  · have hguard := typesOf_guard hne
    unfold filterCallouts
    rw [if_neg (by simp [hguard]), if_neg hne]
    unfold filterCalloutsCore
    rw [foldl_filterStep_eq_specScan]
    simp
  · exact specScan_sublist _ _ _ _

/-- Witness for C3 at a concrete input: an excluded `ai` callout with a nested
line is removed while the surrounding content survives verbatim. -/
theorem filterCallouts_removes_only_excluded_witness :
    typesOf "ai".toList ≠ [] ∧
    filterCallouts "keep\n> [!ai] q\n> a\nalso".toList "ai".toList =
      joinWith "\n".toList
        (specScan (typesOf "ai".toList)
          (splitOnChar '\n' "keep\n> [!ai] q\n> a\nalso".toList) none false) ∧
    List.Sublist
      (specScan (typesOf "ai".toList)
        (splitOnChar '\n' "keep\n> [!ai] q\n> a\nalso".toList) none false)
      (splitOnChar '\n' "keep\n> [!ai] q\n> a\nalso".toList) := by
  refine ⟨by decide, ?_⟩
  exact filterCallouts_removes_only_excluded "keep\n> [!ai] q\n> a\nalso".toList
    "ai".toList (by decide)

/-! ### Vault model, patterns and link expansion -/

/-- Frontmatter value model: YAML scalars/mappings/sequences as cached by the
host (`unknown` in the source's types). -/
inductive FMValue where
  | str (s : Str)
  | map (entries : List (Str × FMValue))
  | list (xs : List FMValue)
  | bool (b : Bool)
  | int (n : Int)
  | null
deriving Repr

/-- Frontmatter key-value map of a note. -/
abbrev Frontmatter := List (Str × FMValue)

/-- JS truthiness of a frontmatter value (`""`, `false`, `0` and `null` are
falsy; objects and arrays are truthy). -/
def FMValue.falsy : FMValue → Bool
  | .str s => s.isEmpty
  | .map _ => false
  | .list _ => false
  | .bool b => !b
  | .int n => n = 0
  | .null => true

/-- Model of a compiled JS `RegExp` for the pattern fragment this plugin's
claims use: an optional start anchor `^` followed by a literal. -/
structure JSRegExp where
  anchoredStart : Bool
  literal : Str
deriving Repr, DecidableEq

/-- Whether `needle` occurs anywhere in `s`. -/
def isSubstring (needle s : Str) : Bool :=
  s.tails.any (fun t => needle.isPrefixOf t)

/-- `RegExp.prototype.test` for the modelled fragment: an anchored pattern must
match at the start of the string, an unanchored one anywhere. -/
def JSRegExp.test (r : JSRegExp) (s : Str) : Bool :=
  if r.anchoredStart then r.literal.isPrefixOf s
  else isSubstring r.literal s

/-- Regex metacharacters that fall outside the modelled pattern fragment. -/
def isRegexMeta (c : Char) : Bool :=
  c = '.' || c = '*' || c = '+' || c = '?' || c = '(' || c = ')' || c = '[' ||
  c = ']' || c = '|' || c = '$' || c = '^' || c = '\x7b' || c = '\x7d'

/-- Parse the body of a modelled pattern: literal characters, with backslash
escapes of punctuation.  Patterns using constructs outside the modelled
fragment (quantifiers, classes, groups, alternation, escape classes) are not
modelled and yield `none`. -/
def parseSimpleRegexBody : Str → Option Str
  | [] => some []
  | '\\' :: c :: rest =>
    if c.isAlphanum then none
    else (parseSimpleRegexBody rest).map (fun r => c :: r)
  | ['\\'] => none
  | c :: rest =>
    if isRegexMeta c then none
    else (parseSimpleRegexBody rest).map (fun r => c :: r)

/-- Model of `new RegExp(pattern)` on the modelled fragment: an optional
leading `^` start anchor, then a literal body. -/
def parseSimpleRegex (p : Str) : Option JSRegExp :=
  match p with
  | '^' :: rest => (parseSimpleRegexBody rest).map (JSRegExp.mk true)
  | _ => (parseSimpleRegexBody p).map (JSRegExp.mk false)

/-- The `string | string[] | undefined` input type of
`compileExcludePatterns`. -/
inductive PatternsRaw where
  | undefined
  | str (s : Str)
  | list (ps : List Str)
deriving Repr

/-- source `journal-Plugin.ts` `compileExcludePatterns`: falsy input yields no
patterns; a string is split on newlines, trimmed and blank-filtered; each
entry is compiled, and entries that fail to compile are skipped (the
`try`/`catch` that logs a warning). -/
def compileExcludePatterns (raw : PatternsRaw) : List JSRegExp :=
  match raw with
  | .undefined => []
  | .str s =>
    if s.isEmpty then []
    else
      (((splitOnChar '\n' s).map jsTrim).filter (fun p => p.length > 0)).filterMap
        parseSimpleRegex
  | .list ps => ps.filterMap parseSimpleRegex

/-- A reference discovered in a note (the host's `LinkCache`): target text and
optional display text. -/
structure LinkEntry where
  link : Str
  displayText : Option Str
deriving Repr, DecidableEq

/-- source `journal-Plugin.ts` `shouldExcludeLink`: render the canonical form
`[displayText](link)` (JS template-literal stringification turns an absent
display text into the text `undefined`) and test it against the union of the
global and the prompt's additional patterns; any match excludes. -/
def shouldExcludeLink (excludePatterns : List JSRegExp) (linkCache : LinkEntry)
    (additionalPatterns : List JSRegExp) : Bool :=
  let textToCheck :=
    "[".toList ++
      (match linkCache.displayText with
        | some d => d
        | none => "undefined".toList) ++
      "](".toList ++ linkCache.link ++ ")".toList
  (excludePatterns ++ additionalPatterns).any (fun p => p.test textToCheck)

/-- Heading entry of the host's metadata cache (text, level, and the content
offsets of the heading line's end and start). -/
structure HeadingCache where
  heading : Str
  level : Nat
  startOffset : Nat
  endOffset : Nat
deriving Repr, DecidableEq

/-- Per-file metadata cache: outgoing links and embeds, block positions,
headings, and parsed frontmatter. -/
structure FileCache where
  links : List LinkEntry
  embeds : List LinkEntry
  blocks : List (Str × Nat)
  headings : List HeadingCache
  frontmatter : Option Frontmatter

/-- The host (Obsidian vault + metadata cache) as collaborator functions.
`read` returning `none` models a thrown read error; `fileExists` models
`getAbstractFileByPath` returning a `TFile`. -/
structure Vault where
  fileExists : Str → Bool
  read : Str → Option Str
  fileCache : Str → Option FileCache
  resolveLink : Str → Str → Option Str

/-- `Set.add` on the processed-files set, modelled as an ordered list of
distinct paths. -/
def addSet (s : List Str) (x : Str) : List Str := if x ∈ s then s else s ++ [x]

/-- JS `substring(start, end)`: clamps both indices and swaps them if needed. -/
def jsSubstring (s : Str) (a b : Nat) : Str :=
  let a' := min a s.length
  let b' := min b s.length
  (s.take (max a' b')).drop (min a' b')

/-- JS `subpath.replace(/%20/g, " ")`. -/
def replacePercent20 : Str → Str
  | '%' :: '2' :: '0' :: rest => ' ' :: replacePercent20 rest
  | c :: rest => c :: replacePercent20 rest
  | [] => []

/-- First heading whose text matches, together with the entries after it
(`headings.find` + `indexOf` + `slice(index + 1)` in the source). -/
def findHeading (target : Str) : List HeadingCache → Option (HeadingCache × List HeadingCache)
  | [] => none
  | h :: rest =>
    if h.heading = target then some (h, rest)
    else findHeading target rest

/-- source `journal-Plugin.ts` `extractSubpathContent`: a `^block` subpath
returns the block's single line (`lines[...] || ""`), a heading subpath the
trimmed section from the heading's end to the next heading of
equal-or-shallower level (or end of content); otherwise the full content. -/
def extractSubpathContent (v : Vault) (file : Str) (fileContent : Str)
    (subpath : Str) : Str :=
  match v.fileCache file with
  | none => fileContent
  | some cache =>
    match subpath with
    | '^' :: blockId =>
      match lookupEntry blockId cache.blocks with
      | some startLine => (splitOnChar '\n' fileContent).getD startLine []
      | none => fileContent
    | _ =>
      let targetHeading := replacePercent20 subpath
      match findHeading targetHeading cache.headings with
      | some (heading, after) =>
        let startOff := heading.endOffset
        let endOff :=
          match after.find? (fun h => h.level ≤ heading.level) with
          | some h => h.startOffset
          | none => fileContent.length
        jsTrim (jsSubstring fileContent startOff endOff)
      | none => fileContent

/-- The `for (const cachedLink of allLinks)` loop of source
`journal-Plugin.ts` `expandLinkedFiles`, with the recursive expansion call
abstracted as `recur`.  State: accumulated content, the shared processed-files
set, and the per-call processed-links set. -/
def expandLoop (v : Vault) (globalPats pathPatterns : List JSRegExp) (src : Str)
    (depth : Nat) (recur : Str → Str → List Str → Str × List Str) :
    List LinkEntry → Str → List Str → List Str → Str × List Str
  | [], expandedContent, processedFiles, _ => (expandedContent, processedFiles)
  | cachedLink :: rest, expandedContent, processedFiles, processedLinks =>
    if shouldExcludeLink globalPats cachedLink pathPatterns then
      expandLoop v globalPats pathPatterns src depth recur rest
        expandedContent processedFiles processedLinks
    else if cachedLink.link ∈ processedLinks then
      expandLoop v globalPats pathPatterns src depth recur rest
        expandedContent processedFiles processedLinks
    else
      let processedLinks' := addSet processedLinks cachedLink.link
      let parsed := parseLinkReference cachedLink.link
      match v.resolveLink parsed.1 src with
      | none =>
        expandLoop v globalPats pathPatterns src depth recur rest
          expandedContent processedFiles processedLinks'
      | some targetFile =>
        if targetFile ∈ processedFiles then
          expandLoop v globalPats pathPatterns src depth recur rest
            expandedContent processedFiles processedLinks'
        else
          match v.read targetFile with
          | none =>
            expandLoop v globalPats pathPatterns src depth recur rest
              expandedContent processedFiles processedLinks'
          | some linkedContent =>
            let extractedContent :=
              match parsed.2 with
              | some sp => extractSubpathContent v targetFile linkedContent sp
              | none => linkedContent
            let res := recur targetFile extractedContent processedFiles
            let quotedContent := formatAsEmbedBlockquoteD res.1 cachedLink.link depth
            expandLoop v globalPats pathPatterns src depth recur rest
              (expandedContent ++ "\n\n".toList ++ quotedContent) res.2 processedLinks'

/-- source `journal-Plugin.ts` `expandLinkedFiles`, with an explicit fuel
argument bounding the recursion depth (the wrapper `expandLinkedFiles` below
instantiates `fuel := 2 - depth`, which the `depth >= 2` guard keeps
positive on every reachable recursive call, so the fuel-exhausted branch is
unreachable).  Returns the expanded content together with the updated shared
processed-files set (the JS `Set` is mutated in place). -/
def expandGo (v : Vault) (globalPats : List JSRegExp) (includeLinks : Bool)
    (pathPatterns : List JSRegExp) :
    Nat → Option Str → Str → Nat → List Str → Str × List Str
  | _, none, content, _, processedFiles => (content, processedFiles)
  | fuel, some sourceFile, content, depth, processedFiles =>
    if 2 ≤ depth then (content, processedFiles)
    else
      match fuel with
      | 0 => (content, processedFiles)
      | fuel' + 1 =>
        let processedFiles' := addSet processedFiles sourceFile
        match v.fileCache sourceFile with
        | none => (content, processedFiles')
        | some cache =>
          let allLinks := (if includeLinks then cache.links else []) ++ cache.embeds
          expandLoop v globalPats pathPatterns sourceFile depth
            (fun tgt c pf =>
              expandGo v globalPats includeLinks pathPatterns fuel' (some tgt) c
                (depth + 1) pf)
            allLinks content processedFiles' []

/-- source `journal-Plugin.ts` `expandLinkedFiles` at its JS signature: the
recursion on `depth` (guarded by `depth >= 2`) is realised through the fuel
`2 - depth`. -/
def expandLinkedFiles (v : Vault) (globalPats : List JSRegExp)
    (sourceFile : Option Str) (content : Str) (includeLinks : Bool)
    (pathPatterns : List JSRegExp) (depth : Nat) (processedFiles : List Str) :
    Str × List Str :=
  expandGo v globalPats includeLinks pathPatterns (2 - depth) sourceFile content
    depth processedFiles

/-- Number of positions at which `needle` occurs in `s`. -/
def countSubstr (needle s : Str) : Nat :=
  (s.tails.filter (fun t => needle.isPrefixOf t)).length

/-! ### C10: expansion only appends; early exits return the input -/

theorem expandLoop_acc (v : Vault) (gp pp : List JSRegExp) (src : Str) (depth : Nat)
    (recur : Str → Str → List Str → Str × List Str) :
    ∀ (links : List LinkEntry) (acc : Str) (pf pl : List Str),
      ∃ t, (expandLoop v gp pp src depth recur links acc pf pl).1 = acc ++ t := by
  intro links
  induction links with
  | nil =>
    intro acc pf pl
    exact ⟨[], by simp [expandLoop]⟩
  | cons l rest ih =>
    intro acc pf pl
    have haux : ∀ (acc2 : Str) (pf2 pl2 : List Str), (∃ u, acc2 = acc ++ u) →
        ∃ t, (expandLoop v gp pp src depth recur rest acc2 pf2 pl2).1 = acc ++ t := by
      rintro acc2 pf2 pl2 ⟨u, rfl⟩
      obtain ⟨t, ht⟩ := ih (acc ++ u) pf2 pl2
      exact ⟨u ++ t, by rw [ht, List.append_assoc]⟩
    have hid : ∃ u, acc = acc ++ u := ⟨[], by simp⟩
    simp only [expandLoop]
    split
    · exact haux _ _ _ hid
    split
    · exact haux _ _ _ hid
    split
    · exact haux _ _ _ hid
    split
    · exact haux _ _ _ hid
    split
    · exact haux _ _ _ hid
    · exact haux _ _ _ ⟨_, List.append_assoc acc _ _⟩

theorem expandGo_isPrefix (v : Vault) (gp : List JSRegExp) (il : Bool)
    (pp : List JSRegExp) (fuel : Nat) (src : Option Str) (content : Str)
    (depth : Nat) (pf : List Str) :
    ∃ t, (expandGo v gp il pp fuel src content depth pf).1 = content ++ t := by
  cases src with
  | none =>
    cases fuel with
    | zero => exact ⟨[], by simp [expandGo]⟩
    | succ fuel' => exact ⟨[], by simp [expandGo]⟩
  | some s =>
    cases fuel with
    | zero =>
      simp only [expandGo]
      split
      · exact ⟨[], by simp⟩
      · exact ⟨[], by simp⟩
    | succ fuel' =>
      simp only [expandGo]
      split
      · exact ⟨[], by simp⟩
      · split
        · exact ⟨[], by simp⟩
        · exact expandLoop_acc v gp pp s depth _ _ content _ []

/-- C10: for every vault, source note and input content, the expanded string
begins with the input content (expansion only appends quoted blocks after the
original text), and every early-exit path — absent source file, depth limit
reached, missing metadata cache — returns the content exactly. -/
theorem expandLinkedFiles_appends_only :
    (∀ (v : Vault) (gp : List JSRegExp) (src : Option Str) (content : Str)
        (il : Bool) (pp : List JSRegExp) (depth : Nat) (pf : List Str),
      ∃ t, (expandLinkedFiles v gp src content il pp depth pf).1 = content ++ t) ∧
    (∀ (v : Vault) (gp : List JSRegExp) (content : Str) (il : Bool)
        (pp : List JSRegExp) (depth : Nat) (pf : List Str),
      expandLinkedFiles v gp none content il pp depth pf = (content, pf)) ∧
    (∀ (v : Vault) (gp : List JSRegExp) (s : Str) (content : Str) (il : Bool)
        (pp : List JSRegExp) (depth : Nat) (pf : List Str), 2 ≤ depth →
      expandLinkedFiles v gp (some s) content il pp depth pf = (content, pf)) ∧
    (∀ (v : Vault) (gp : List JSRegExp) (s : Str) (content : Str) (il : Bool)
        (pp : List JSRegExp) (depth : Nat) (pf : List Str), v.fileCache s = none →
      (expandLinkedFiles v gp (some s) content il pp depth pf).1 = content) := by
  refine ⟨?_, ?_, ?_, ?_⟩
  · intro v gp src content il pp depth pf
    exact expandGo_isPrefix v gp il pp (2 - depth) src content depth pf
  · intro v gp content il pp depth pf
    unfold expandLinkedFiles
    cases h : 2 - depth with
    | zero => rfl
    | succ n => rfl
  · intro v gp s content il pp depth pf h
    unfold expandLinkedFiles
    simp [expandGo, h]
  · intro v gp s content il pp depth pf hcache
    unfold expandLinkedFiles
    by_cases hd : 2 ≤ depth
    · simp [expandGo, hd]
    · have hf : 2 - depth = (1 - depth) + 1 := by omega
      rw [hf]
      simp [expandGo, hd, hcache]

/-- An empty host: no files, no caches. -/
def emptyVault : Vault :=
  { fileExists := fun _ => false
  , read := fun _ => none
  , fileCache := fun _ => none
  , resolveLink := fun _ _ => none }

/-- Witness for C10 at concrete inputs. -/
theorem expandLinkedFiles_appends_only_witness :
    (∃ t, (expandLinkedFiles emptyVault [] (some "A".toList) "x".toList false [] 0 []).1
      = "x".toList ++ t) ∧
    expandLinkedFiles emptyVault [] none "x".toList false [] 0 [] = ("x".toList, []) ∧
    expandLinkedFiles emptyVault [] (some "A".toList) "x".toList false [] 2 []
      = ("x".toList, []) ∧
    (expandLinkedFiles emptyVault [] (some "A".toList) "x".toList false [] 0 []).1
      = "x".toList := by
  refine ⟨?_, ?_, ?_, ?_⟩
  · exact expandLinkedFiles_appends_only.1 emptyVault [] _ _ false [] 0 []
  · exact expandLinkedFiles_appends_only.2.1 emptyVault [] _ false [] 0 []
  · exact expandLinkedFiles_appends_only.2.2.1 emptyVault [] _ _ false [] 2 []
      (by norm_num)
  · exact expandLinkedFiles_appends_only.2.2.2 emptyVault [] _ _ false [] 0 [] rfl

/-! ### C1: cyclic graphs terminate, each note's content appears at most once -/

/-- Metadata cache entry whose embeds are the given link targets. -/
def cacheOfEmbeds (embeds : List Str) : FileCache :=
  { links := []
  , embeds := embeds.map (fun e => ⟨e, some e⟩)
  , blocks := []
  , headings := []
  , frontmatter := none }

/-- The cyclic three-note vault A→B→C→A of the spec's termination property. -/
def vaultABC : Vault :=
  { fileExists := fun p => p = "A".toList || p = "B".toList || p = "C".toList
  , read := fun p =>
      if p = "A".toList then some "A-body".toList
      else if p = "B".toList then some "B-body".toList
      else if p = "C".toList then some "C-body".toList
      else none
  , fileCache := fun p =>
      if p = "A".toList then some (cacheOfEmbeds ["B".toList])
      else if p = "B".toList then some (cacheOfEmbeds ["C".toList])
      else if p = "C".toList then some (cacheOfEmbeds ["A".toList])
      else none
  , resolveLink := fun p _ =>
      if p = "A".toList ∨ p = "B".toList ∨ p = "C".toList then some p else none }

/-- The expansion of A computed over the cyclic vault. -/
def expectedExpansionABC : Str :=
  "A-body\n\n> [!embedded-note] B\n> B-body\n> \n> >> [!embedded-note] C\n> >> C-body".toList

/-- C1: expansion depth is bounded by the constant 2 for every vault (any call
at depth two or more returns its input unchanged, which together with the
total model shows termination on every graph), and on the cyclic graph
A→B→C→A the depth-0 expansion of A terminates with B's and C's contents each
appearing exactly once. -/
theorem expandLinkedFiles_cycle_bounded :
    (∀ (v : Vault) (gp pp : List JSRegExp) (il : Bool) (s : Str) (content : Str)
        (depth : Nat) (pf : List Str), 2 ≤ depth →
      expandLinkedFiles v gp (some s) content il pp depth pf = (content, pf)) ∧
    (expandLinkedFiles vaultABC [] (some "A".toList) "A-body".toList false [] 0 []).1
      = expectedExpansionABC ∧
    countSubstr "B-body".toList expectedExpansionABC = 1 ∧
    countSubstr "C-body".toList expectedExpansionABC = 1 := by
  refine ⟨?_, by decide, by decide, by decide⟩
  intro v gp pp il s content depth pf h
  unfold expandLinkedFiles
  simp [expandGo, h]

/-- Witness for C1: the depth-bound conjunct applied at depth 2. -/
theorem expandLinkedFiles_cycle_bounded_witness :
    expandLinkedFiles vaultABC [] (some "A".toList) "A-body".toList false [] 2 []
      = ("A-body".toList, []) :=
  expandLinkedFiles_cycle_bounded.1 vaultABC [] [] false "A".toList "A-body".toList
    2 [] (by norm_num)

/-! ### C5: exclusion patterns against the canonical link form -/

/-- C5 counterexample: with compiled pattern `^TODO` active, the link rendered
`[TODO: draft](notes/draft.md)` is NOT judged excluded by `shouldExcludeLink`
(the canonical form starts with the bracket, and `^` anchors the match at the
start of the string), refuting the claim. -/
theorem shouldExcludeLink_TODO_not_excluded :
    compileExcludePatterns (.str "^TODO".toList) = [⟨true, "TODO".toList⟩] ∧
    shouldExcludeLink [⟨true, "TODO".toList⟩]
      ⟨"notes/draft.md".toList, some "TODO: draft".toList⟩ [] = false := by
  constructor
  · decide
  · decide

/-- C5 (amended): with pattern `^TODO` neither the TODO link nor the Done link
is excluded, because matching is performed against the canonical form
`[displayText](linkTarget)`, which starts with `[`; the unanchored pattern
`TODO` does exclude the TODO link and not the Done link; and one matching
pattern among the active ones (global ∪ prompt-specific) suffices to
exclude. -/
theorem shouldExcludeLink_canonical_form :
    shouldExcludeLink [⟨true, "TODO".toList⟩]
      ⟨"notes/draft.md".toList, some "TODO: draft".toList⟩ [] = false ∧
    shouldExcludeLink [⟨true, "TODO".toList⟩]
      ⟨"notes/done.md".toList, some "Done".toList⟩ [] = false ∧
    compileExcludePatterns (.str "TODO".toList) = [⟨false, "TODO".toList⟩] ∧
    shouldExcludeLink [⟨false, "TODO".toList⟩]
      ⟨"notes/draft.md".toList, some "TODO: draft".toList⟩ [] = true ∧
    shouldExcludeLink [⟨false, "TODO".toList⟩]
      ⟨"notes/done.md".toList, some "Done".toList⟩ [] = false ∧
    (∀ (gp extra : List JSRegExp) (lc : LinkEntry) (p : JSRegExp),
      p ∈ gp ++ extra →
      p.test ("[".toList ++
        (match lc.displayText with
          | some d => d
          | none => "undefined".toList) ++
        "](".toList ++ lc.link ++ ")".toList) = true →
      shouldExcludeLink gp lc extra = true) := by
  refine ⟨by decide, by decide, by decide, by decide, by decide, ?_⟩
  intro gp extra lc p hmem htest
  unfold shouldExcludeLink
  simp only [List.any_eq_true]
  exact ⟨p, hmem, htest⟩

/-- Witness for C5's amended theorem: the any-match-suffices conjunct applied
at a concrete pattern and link. -/
theorem shouldExcludeLink_canonical_form_witness :
    shouldExcludeLink [⟨false, "dra".toList⟩]
      ⟨"notes/draft.md".toList, some "TODO: draft".toList⟩ [] = true :=
  shouldExcludeLink_canonical_form.2.2.2.2.2 [⟨false, "dra".toList⟩] []
    ⟨"notes/draft.md".toList, some "TODO: draft".toList⟩ ⟨false, "dra".toList⟩
    (by decide) (by decide)

/-! ### Prompt resolution (journal-Plugin.ts) -/

/-- Resolved prompt record (`ResolvedPrompt` in settings.d.ts).  Frontmatter
numbers are modelled as integers. -/
structure ResolvedPrompt where
  prompt : Str
  model : Option Str := none
  numCtx : Option Int := none
  isContinuous : Option Bool := none
  includeLinks : Option Bool := none
  excludePatterns : List JSRegExp := []
  sourcePath : Option Str := none
  temperature : Option Int := none
  topP : Option Int := none
  repeatPenalty : Option Int := none
deriving Repr, DecidableEq

/-- Per-prompt persisted configuration (`PromptConfig` in settings.d.ts). -/
structure PromptConfig where
  displayLabel : Str
  promptFile : Option Str := none
  calloutHeading : Option Str := none
  excludeCalloutTypes : Option Str := none
deriving Repr, DecidableEq

/-- The persisted settings (`JournalReflectSettings` in settings.d.ts). -/
structure JournalReflectSettings where
  ollamaUrl : Str
  modelName : Str
  excludePatterns : Str
  keepAlive : Str
  prompts : List (Str × PromptConfig)
deriving Repr, DecidableEq

/-- source `journal-Constants.ts` `DEFAULT_PROMPT`. -/
def DEFAULT_PROMPT : Str :=
  ("You are a helpful journaling assistant that helps the user reflect while they journal.\n" ++
   "You will be given a user's journal entry as markdown. Blockquotes represent past reflection questions asked by you.\n" ++
   "Your job is to read the journal and suggest a reflection question to further stimulate the writer's thoughts and guide their thinking.\n" ++
   "Return the reflection question in raw text and not a markdown blockquote.\n" ++
   "Keep your response concise and thought-provoking.").toList

/-- Lookup in an optional frontmatter map (JS `frontmatter?.[key]`). -/
def fmLookup (fm : Option Frontmatter) (k : Str) : Option FMValue :=
  fm.bind (lookupEntry k)

/-- JS nullish coalescing `a ?? b` on frontmatter values (`null` and
`undefined` both fall through). -/
def jsCoalesce (a b : Option FMValue) : Option FMValue :=
  match a with
  | none => b
  | some .null => b
  | some v => some v

/-- source `extractFrontmatterValue`: a falsy entry yields nothing; a string
entry applies to every prompt key; a mapping entry is indexed by the prompt
key and must map it to a string. -/
def extractFrontmatterValue (frontmatter : Option Frontmatter) (key : Str)
    (promptKey : Str) : Option Str :=
  match fmLookup frontmatter key with
  | none => none
  | some value =>
    if value.falsy then none
    else
      match value with
      | .str s => some s
      | .map entries =>
        match lookupEntry promptKey entries with
        | some (.str s) => some s
        | _ => none
      | _ => none

/-- source `getFrontmatterValue`: first of the keys whose entry is present
(`!== undefined`; a `null` entry is still returned). -/
def getFrontmatterValue (fm : Option Frontmatter) : List Str → Option FMValue
  | [] => none
  | k :: rest =>
    match fmLookup fm k with
    | some v => some v
    | none => getFrontmatterValue fm rest

/-- Digits of an integer-literal string. -/
def digitsToNat (ds : Str) : Nat :=
  ds.foldl (fun acc c => acc * 10 + (c.toNat - '0'.toNat)) 0

/-- Model of `Number.parseFloat(String(value).trim())` on the modelled
fragment: integer-literal strings parse; values outside the fragment
(fractional literals, partial numeric prefixes) are treated as NaN. -/
def jsStringToInt (s : Str) : Option Int :=
  match jsTrim s with
  | '-' :: ds =>
    if ds ≠ [] ∧ ds.all Char.isDigit then some (-(digitsToNat ds : Int)) else none
  | ds =>
    if ds ≠ [] ∧ ds.all Char.isDigit then some ((digitsToNat ds : Int)) else none

/-- source `parseFiniteNumber`: numbers pass through, numeric-looking strings
are parsed, everything else (booleans, objects, `null`, `undefined`) is
absent. -/
def parseFiniteNumber : Option FMValue → Option Int
  | none => none
  | some .null => none
  | some (.int n) => some n
  | some (.str s) => jsStringToInt s
  | some (.bool _) => none
  | some (.map _) => none
  | some (.list _) => none

/-- source `parsePositiveInteger` (in the integer model every finite value is
an integer, so only positivity is checked). -/
def parsePositiveInteger (value : Option FMValue) : Option Int :=
  match parseFiniteNumber value with
  | none => none
  | some n => if n > 0 then some n else none

/-- source `parseBoolean`: booleans pass through; the strings `"true"` and
`"false"` (trimmed, lowercased) parse; everything else is absent. -/
def parseBoolean : Option FMValue → Option Bool
  | none => none
  | some .null => none
  | some (.bool b) => some b
  | some (.str s) =>
    let normalized := jsToLower (jsTrim s)
    if normalized = "true".toList then some true
    else if normalized = "false".toList then some false
    else none
  | some _ => none

/-- source `parseParameterWithConstraint`. -/
def parseParameterWithConstraint (fm : Option Frontmatter) (keys : List Str)
    (constraint : Int → Bool) : Option Int :=
  match parseFiniteNumber (getFrontmatterValue fm keys) with
  | some n => if constraint n then some n else none
  | none => none

/-- Coerce a frontmatter value to `compileExcludePatterns`' raw input type.
Values outside `string | string[]` (and non-string array elements) are outside
the modelled fragment. -/
def patternsRawOfFM : Option FMValue → PatternsRaw
  | none => .undefined
  | some (.str s) => .str s
  | some (.list xs) =>
    .list (xs.filterMap (fun x => match x with | .str s => some s | _ => none))
  | some _ => .undefined

/-- source `stripFrontmatter`: remove the first (non-greedy) match of
`/^---\n[\s\S]*?\n---\n/`, then trim. -/
def stripFrontmatter (content : Str) : Str :=
  match content with
  | '-' :: '-' :: '-' :: '\n' :: rest =>
    match (rest.tails.findIdx? (fun t => ("\n---\n".toList).isPrefixOf t)) with
    | some i => jsTrim (rest.drop (i + 5))
    | none => jsTrim content
  | _ => jsTrim content

/-- Body of the `try` block of source `readPromptFromFile`: parse the prompt
file's frontmatter for generation parameters and take its stripped body as the
instruction text; the file path becomes `sourcePath`. -/
def promptFromContent (v : Vault) (promptFilePath : Str) (promptContent : Str) :
    ResolvedPrompt :=
  let frontmatter := (v.fileCache promptFilePath).bind (·.frontmatter)
      let model :=
        match fmLookup frontmatter "model".toList with
        | some (.str s) => some s
        | _ => none
      let numCtx := parsePositiveInteger (fmLookup frontmatter "num_ctx".toList)
      let temperature := parseParameterWithConstraint frontmatter
        ["temperature".toList, "temp".toList] (fun val => val ≥ 0)
      let topP := parseParameterWithConstraint frontmatter
        ["top_p".toList, "topP".toList, "top-p".toList] (fun val => val > 0)
      let repeatPenalty := parseParameterWithConstraint frontmatter
        ["repeat_penalty".toList, "repeatPenalty".toList, "repeat-penalty".toList]
        (fun val => val > 0)
      let rawContinuous :=
        jsCoalesce (fmLookup frontmatter "isContinuous".toList)
          (jsCoalesce (fmLookup frontmatter "is_continuous".toList)
            (jsCoalesce (fmLookup frontmatter "is-continuous".toList)
              (fmLookup frontmatter "continuous".toList)))
      let isContinuous := parseBoolean rawContinuous
      let rawIncludeLinks :=
        jsCoalesce (fmLookup frontmatter "includeLinks".toList)
          (jsCoalesce (fmLookup frontmatter "include_links".toList)
            (fmLookup frontmatter "include-links".toList))
      let includeLinks := parseBoolean rawIncludeLinks
      let excludePatternsRaw :=
        jsCoalesce (fmLookup frontmatter "excludePatterns".toList)
          (jsCoalesce (fmLookup frontmatter "exclude_patterns".toList)
            (fmLookup frontmatter "exclude-patterns".toList))
  let excludePats := compileExcludePatterns (patternsRawOfFM excludePatternsRaw)
  let promptText := stripFrontmatter promptContent
  { prompt := promptText
  , model := model
  , numCtx := numCtx
  , isContinuous := isContinuous
  , includeLinks := includeLinks
  , excludePatterns := excludePats
  , sourcePath := some promptFilePath
  , temperature := temperature
  , topP := topP
  , repeatPenalty := repeatPenalty }

/-- source `readPromptFromFile`: an existing, readable prompt file yields a
fully populated `ResolvedPrompt` via `promptFromContent`; a missing or
unreadable file raises a notice and yields nothing. -/
def readPromptFromFile (v : Vault) (promptFilePath : Str) :
    Option ResolvedPrompt × List Str :=
  if v.fileExists promptFilePath then
    match v.read promptFilePath with
    | none =>
      (none, ["Could not read prompt file: ".toList ++ promptFilePath])
    | some promptContent =>
      (some (promptFromContent v promptFilePath promptContent), [])
  else
    (none, ["Prompt file not found: ".toList ++ promptFilePath])

/-- source `getDefaultPrompt`: an unknown prompt key throws
`Error("Unknown prompt key: ...")`; otherwise the configured prompt file is
tried and the built-in default instruction is the final fallback. -/
def getDefaultPrompt (st : JournalReflectSettings) (v : Vault) (promptKey : Str) :
    Except Str (ResolvedPrompt × List Str) :=
  match lookupEntry promptKey st.prompts with
  | none => .error ("Unknown prompt key: ".toList ++ promptKey)
  | some promptConfig =>
    match promptConfig.promptFile with
    | some pf =>
      if pf.isEmpty then .ok ({ prompt := DEFAULT_PROMPT }, [])
      else
        match readPromptFromFile v pf with
        | (some resolved, notices) => .ok (resolved, notices)
        | (none, notices) => .ok ({ prompt := DEFAULT_PROMPT }, notices)
    | none => .ok ({ prompt := DEFAULT_PROMPT }, [])

/-- The `prompt-file` tier and below of `resolvePromptFromFile`. -/
def resolveViaPromptFile (st : JournalReflectSettings) (v : Vault)
    (frontmatter : Option Frontmatter) (promptKey : Str) :
    Except Str (ResolvedPrompt × List Str) :=
  match extractFrontmatterValue frontmatter "prompt-file".toList promptKey with
  | some pf =>
    if pf.isEmpty then getDefaultPrompt st v promptKey
    else
      match readPromptFromFile v pf with
      | (some resolved, notices) => .ok (resolved, notices)
      | (none, notices) =>
        match getDefaultPrompt st v promptKey with
        | .ok (r, n2) => .ok (r, notices ++ n2)
        | .error e => .error e
  | none => getDefaultPrompt st v promptKey

/-- source `resolvePromptFromFile`: inline frontmatter `prompt` first, then
the note's `prompt-file`, then the configured defaults.  `Except.error`
models the JS `Error` thrown for an unknown prompt key; the string list
collects the notices raised along the way. -/
def resolvePromptFromFile (st : JournalReflectSettings) (v : Vault) (file : Str)
    (promptKey : Str) : Except Str (ResolvedPrompt × List Str) :=
  let frontmatter := (v.fileCache file).bind (·.frontmatter)
  match extractFrontmatterValue frontmatter "prompt".toList promptKey with
  | some pv =>
    if pv.isEmpty then resolveViaPromptFile st v frontmatter promptKey
    else .ok ({ prompt := pv }, [])
  | none => resolveViaPromptFile st v frontmatter promptKey

/-! ### Conversation context store and generation orchestration -/

/-- A continuation entry: opaque token list plus the storing timestamp. -/
structure ContextEntry where
  context : List Int
  timestamp : Int
deriving Repr, DecidableEq

/-- The in-memory `promptContexts` map. -/
abbrev ContextStore := List (Str × ContextEntry)

/-- source `journal-Plugin.ts`: `CONTEXT_TTL_MS = 30 * 60 * 1000`. -/
def CONTEXT_TTL_MS : Int := 30 * 60 * 1000

/-- Delete the entry for a key (`Map.delete`). -/
def eraseKey (store : ContextStore) (k : Str) : ContextStore :=
  store.filter (fun p => ¬(p.1 = k))

/-- Replace or append the entry for a key (`Map.set`). -/
def setKey (store : ContextStore) (k : Str) (v : ContextEntry) : ContextStore :=
  if (lookupEntry k store).isSome then
    store.map (fun p => if p.1 = k then (k, v) else p)
  else store ++ [(k, v)]

/-- source `buildContextKey`: only continuous prompts get a key, composed of
the note path and the prompt source (or the prompt key). -/
def buildContextKey (filePath : Str) (resolvedPrompt : ResolvedPrompt)
    (promptKey : Str) : Option Str :=
  if resolvedPrompt.isContinuous = some true then
    some (filePath ++ "::".toList ++
      (match resolvedPrompt.sourcePath with
        | some sp => if sp.isEmpty then promptKey else sp
        | none => promptKey))
  else none

/-- source `getContextForKey`: a null key yields nothing; an entry older than
the TTL is deleted and reported absent; otherwise the stored tokens are
returned.  The second component is the store after the call (the JS map is
mutated in place by the expiry deletion). -/
def getContextForKey (store : ContextStore) (key : Option Str) (now : Int) :
    Option (List Int) × ContextStore :=
  match key with
  | none => (none, store)
  | some k =>
    if k.isEmpty then (none, store)
    else
      match lookupEntry k store with
      | none => (none, store)
      | some entry =>
        if now - entry.timestamp > CONTEXT_TTL_MS then (none, eraseKey store k)
        else (some entry.context, store)

/-- source `cullExpiredContexts`: drop every entry older than the TTL. -/
def cullExpiredContexts (store : ContextStore) (now : Int) : ContextStore :=
  store.filter (fun p => ¬(now - p.2.timestamp > CONTEXT_TTL_MS))

/-- source `storeContextForKey`: an empty token list deletes the entry;
otherwise the entry is written with the current timestamp and expired entries
are culled. -/
def storeContextForKey (store : ContextStore) (key : Str) (context : List Int)
    (now : Int) : ContextStore :=
  if context.isEmpty then eraseKey store key
  else cullExpiredContexts (setKey store key ⟨context, now⟩) now

/-- Options of one inference call (`GenerateOptions`, plus the sampling
overrides the plugin passes). -/
structure GenerateOptions where
  numCtx : Option Int
  context : Option (List Int)
  temperature : Option Int
  topP : Option Int
  repeatPenalty : Option Int
deriving Repr, DecidableEq

/-- Result of one inference call (`GenerateResult`): response text or null,
optional continuation tokens. -/
structure GenerateResult where
  response : Option Str
  context : Option (List Int)
deriving Repr, DecidableEq

/-- The inference collaborator at its boundary: connectivity plus a pure
generate function (model, system prompt, document text, options). -/
structure OllamaClient where
  connected : Bool
  generate : Str → Str → Str → GenerateOptions → GenerateResult

/-- JS `a || b` on an optional string. -/
def jsOrStr (a : Option Str) (b : Str) : Str :=
  match a with
  | some s => if s.isEmpty then b else s
  | none => b

/-- source `getGeneratedContent`: validations (non-empty document, configured
URL and model, connectivity), continuation lookup, inference call, and
continuation storage.  Returns the response, the notices raised, and the
updated context store. -/
def getGeneratedContent (st : JournalReflectSettings) (ollama : OllamaClient)
    (store : ContextStore) (now : Int) (documentText : Str)
    (resolvedPrompt : ResolvedPrompt) (promptKey : Str) (activeNote : Str) :
    Option Str × List Str × ContextStore :=
  if (jsTrim documentText).isEmpty then
    (none, ["Document is empty. Write something first!".toList], store)
  else
    let model := jsOrStr resolvedPrompt.model st.modelName
    if st.ollamaUrl.isEmpty ∨ model.isEmpty then
      (none, ["Ollama URL or model not configured. Please check settings.".toList],
        store)
    else if ollama.connected = false then
      (none, ["Cannot connect to Ollama. Please ensure Ollama is running.".toList],
        store)
    else
      let displayLabel :=
        jsOrStr ((lookupEntry promptKey st.prompts).map (·.displayLabel)) promptKey
      let genNotice :=
        "Generating ".toList ++ displayLabel ++ " using ".toList ++ model
      let contextKey := buildContextKey activeNote resolvedPrompt promptKey
      let got := getContextForKey store contextKey now
      let result := ollama.generate model resolvedPrompt.prompt documentText
        ⟨resolvedPrompt.numCtx, got.1, resolvedPrompt.temperature,
          resolvedPrompt.topP, resolvedPrompt.repeatPenalty⟩
      let store2 :=
        match contextKey, result.context with
        | some ck, some rc => storeContextForKey got.2 ck rc now
        | _, _ => got.2
      (result.response, [genNotice], store2)

/-- source `insertContent`: format the response as a blockquote under the
configured callout heading and surround it with blank lines depending on
whether the cursor line is empty.  Returns the inserted text and the notice. -/
def insertContent (st : JournalReflectSettings) (content : Str) (promptKey : Str)
    (cursorLine : Str) : Str × List Str :=
  let promptConfig := lookupEntry promptKey st.prompts
  let calloutHeading := promptConfig.bind (·.calloutHeading)
  let formattedContent := formatAsBlockquote content calloutHeading
  let isEmptyLine := (jsTrim cursorLine).isEmpty
  let insertText :=
    if isEmptyLine then formattedContent ++ "\n\n".toList
    else "\n\n".toList ++ formattedContent ++ "\n\n".toList
  let displayLabel :=
    jsOrStr ((lookupEntry promptKey st.prompts).map (·.displayLabel)) promptKey
  (insertText, ["Inserted ".toList ++ displayLabel])

/-- source `generateContentWithEditor`: the generation entry point.
`Except.error` models a thrown JS error escaping the function; `.ok none`
models returning without inserting; `.ok (some text)` carries the inserted
text.  Also returns the notices raised and the context store after the
call. -/
def generateContentWithEditor (st : JournalReflectSettings) (v : Vault)
    (globalPats : List JSRegExp) (ollama : OllamaClient) (store : ContextStore)
    (now : Int) (docContent : Str) (activeNote : Option Str) (promptKey : Str)
    (cursorLine : Str) :
    Except Str (Option Str) × List Str × ContextStore :=
  match activeNote with
  | none => (.ok none, ["No file context available.".toList], store)
  | some note =>
    match resolvePromptFromFile st v note promptKey with
    | .error e => (.error e, [], store)
    | .ok (resolved, notices1) =>
      let expanded := expandLinkedFiles v globalPats (some note) docContent
        (resolved.includeLinks.getD false) resolved.excludePatterns 0 []
      let promptConfig := lookupEntry promptKey st.prompts
      let filteredDocContent := filterCallouts expanded.1
        ((promptConfig.bind (·.excludeCalloutTypes)).getD [])
      let gen := getGeneratedContent st ollama store now filteredDocContent
        resolved promptKey note
      match gen.1 with
      | some content =>
        if content.isEmpty then (.ok none, notices1 ++ gen.2.1, gen.2.2)
        else
          let ins := insertContent st content promptKey cursorLine
          (.ok (some ins.1), notices1 ++ gen.2.1 ++ ins.2, gen.2.2)
      | none => (.ok none, notices1 ++ gen.2.1, gen.2.2)

/-! ### C2: the inline frontmatter prompt tier -/

/-- A metadata-cache entry carrying only frontmatter. -/
def cacheWithFM (fm : Option Frontmatter) : FileCache :=
  { links := [], embeds := [], blocks := [], headings := [], frontmatter := fm }

/-- Settings with one `reflection` prompt slot whose prompt file is `p.md`. -/
def settingsWithPromptFile : JournalReflectSettings :=
  { ollamaUrl := "http://localhost:11434".toList
  , modelName := "llama3.1".toList
  , excludePatterns := []
  , keepAlive := "10m".toList
  , prompts := [("reflection".toList,
      { displayLabel := "reflection question".toList
      , promptFile := some "p.md".toList })] }

/-- A vault whose note `n.md` has the inline frontmatter entry
`prompt: ""` and whose prompt file `p.md` has body `FILE`. -/
def vaultEmptyInlinePrompt : Vault :=
  { fileExists := fun p => p = "p.md".toList || p = "n.md".toList
  , read := fun p =>
      if p = "p.md".toList then some "FILE".toList
      else if p = "n.md".toList then some "note".toList
      else none
  , fileCache := fun p =>
      if p = "n.md".toList then
        some (cacheWithFM (some [("prompt".toList, FMValue.str [])]))
      else if p = "p.md".toList then some (cacheWithFM none)
      else none
  , resolveLink := fun _ _ => none }

/-- C2 counterexample: a note whose frontmatter field `prompt` is the string
`""` does NOT win the override chain — the empty string is falsy in JS, so
resolution falls through to the configured prompt file and returns its body
`FILE`, not `""`.  This refutes the claim for `X = ""`. -/
theorem resolvePrompt_empty_inline_loses :
    fmLookup ((vaultEmptyInlinePrompt.fileCache "n.md".toList).bind (·.frontmatter))
      "prompt".toList = some (FMValue.str []) ∧
    resolvePromptFromFile settingsWithPromptFile vaultEmptyInlinePrompt
      "n.md".toList "reflection".toList =
      .ok (promptFromContent vaultEmptyInlinePrompt "p.md".toList "FILE".toList, []) ∧
    (promptFromContent vaultEmptyInlinePrompt "p.md".toList "FILE".toList).prompt =
      "FILE".toList ∧
    "FILE".toList ≠ ([] : Str) :=
  ⟨rfl, rfl, rfl, by decide⟩

/-- C2 (amended): when the note's frontmatter `prompt` entry is a NON-EMPTY
string X, or a mapping whose entry for the requested prompt key is a non-empty
string X, `resolvePromptFromFile` returns instruction text exactly X,
regardless of any `prompt-file` entry or configured `promptFile` setting. -/
theorem resolvePromptFromFile_inline_wins (st : JournalReflectSettings) (v : Vault)
    (file promptKey : Str) (fm : Frontmatter) (X : Str)
    (hfm : (v.fileCache file).bind (·.frontmatter) = some fm)
    (hval : lookupEntry "prompt".toList fm = some (.str X) ∨
      ∃ entries, lookupEntry "prompt".toList fm = some (.map entries) ∧
        lookupEntry promptKey entries = some (.str X))
    (hne : X ≠ []) :
    resolvePromptFromFile st v file promptKey = .ok ({ prompt := X }, []) := by
  have hie : X.isEmpty = false := by
    cases X with
    | nil => exact absurd rfl hne
    | cons a l => rfl
  have hbind : fmLookup ((v.fileCache file).bind (·.frontmatter)) "prompt".toList
      = lookupEntry "prompt".toList fm := by
    simp only [fmLookup, hfm]
    rfl
  have hextract : extractFrontmatterValue ((v.fileCache file).bind (·.frontmatter))
      "prompt".toList promptKey = some X := by
    unfold extractFrontmatterValue
    rw [hbind]
    rcases hval with h | ⟨entries, hm, he⟩
    · rw [h]
      simp [FMValue.falsy, hie]
    · rw [hm]
      simp [FMValue.falsy, he]
  simp only [resolvePromptFromFile]
  rw [hextract]
  simp [hie]

/-- A vault whose note `n.md` has a non-empty inline `prompt` entry and a
`prompt-file` entry pointing at `p.md`. -/
def vaultInlinePromptX : Vault :=
  { fileExists := fun p => p = "p.md".toList || p = "n.md".toList
  , read := fun p =>
      if p = "p.md".toList then some "FILE".toList
      else if p = "n.md".toList then some "note".toList
      else none
  , fileCache := fun p =>
      if p = "n.md".toList then
        some (cacheWithFM (some
          [("prompt".toList, FMValue.str "X".toList),
           ("prompt-file".toList, FMValue.str "p.md".toList)]))
      else if p = "p.md".toList then some (cacheWithFM none)
      else none
  , resolveLink := fun _ _ => none }

/-- Witness for C2's amended theorem at a concrete vault where both a
`prompt-file` entry and a configured `promptFile` are present. -/
theorem resolvePromptFromFile_inline_wins_witness :
    resolvePromptFromFile settingsWithPromptFile vaultInlinePromptX "n.md".toList
      "reflection".toList = .ok ({ prompt := "X".toList }, []) :=
  resolvePromptFromFile_inline_wins settingsWithPromptFile vaultInlinePromptX
    "n.md".toList "reflection".toList
    [("prompt".toList, FMValue.str "X".toList),
     ("prompt-file".toList, FMValue.str "p.md".toList)]
    "X".toList rfl (Or.inl rfl) (by decide)

/-! ### C7: instruction-text non-emptiness -/

theorem ok_pair_inj {α β γ : Type} {a r : β} {b n : γ}
    (h : (Except.ok (a, b) : Except α (β × γ)) = .ok (r, n)) : r = a ∧ n = b := by
  injection h with h1
  exact ⟨(Prod.ext_iff.1 h1).1.symm, (Prod.ext_iff.1 h1).2.symm⟩

theorem readPromptFromFile_ok {v : Vault} {pf : Str} {r : ResolvedPrompt}
    {n : List Str} (h : readPromptFromFile v pf = (some r, n)) :
    v.fileExists pf = true ∧ ∃ content, v.read pf = some content ∧
      r = promptFromContent v pf content := by
  unfold readPromptFromFile at h
  by_cases he : v.fileExists pf = true
  · rw [if_pos he] at h
    cases hr : v.read pf with
    | none =>
      rw [hr] at h
      exact absurd (Prod.ext_iff.1 h).1 (by simp)
    | some content =>
      rw [hr] at h
      exact ⟨he, content, rfl,
        (Option.some.inj (Prod.ext_iff.1 h).1).symm⟩
  · rw [if_neg he] at h
    exact absurd (Prod.ext_iff.1 h).1 (by simp)

theorem getDefaultPrompt_shape {st : JournalReflectSettings} {v : Vault}
    {promptKey : Str} {r : ResolvedPrompt} {n : List Str}
    (h : getDefaultPrompt st v promptKey = .ok (r, n)) :
    r.prompt = DEFAULT_PROMPT ∨
    ∃ pf content, v.fileExists pf = true ∧ v.read pf = some content ∧
      r = promptFromContent v pf content := by
  unfold getDefaultPrompt at h
  cases hk : lookupEntry promptKey st.prompts with
  | none =>
    rw [hk] at h
    exact absurd h (by simp)
  | some pc =>
    rw [hk] at h
    dsimp only at h
    cases hpf : pc.promptFile with
    | none =>
      rw [hpf] at h
      left
      rw [(ok_pair_inj h).1]
    | some pf =>
      rw [hpf] at h
      dsimp only at h
      by_cases hemp : pf.isEmpty = true
      · rw [if_pos hemp] at h
        left
        rw [(ok_pair_inj h).1]
      · rw [if_neg hemp] at h
        rcases hrp : readPromptFromFile v pf with ⟨o, ns⟩
        rw [hrp] at h
        cases o with
        | some resolved =>
          obtain ⟨hex, content, hread, hres⟩ := readPromptFromFile_ok hrp
          right
          exact ⟨pf, content, hex, hread, by rw [(ok_pair_inj h).1, hres]⟩
        | none =>
          left
          rw [(ok_pair_inj h).1]

theorem resolveViaPromptFile_shape {st : JournalReflectSettings} {v : Vault}
    {fm : Option Frontmatter} {promptKey : Str} {r : ResolvedPrompt} {n : List Str}
    (h : resolveViaPromptFile st v fm promptKey = .ok (r, n)) :
    r.prompt = DEFAULT_PROMPT ∨
    ∃ pf content, v.fileExists pf = true ∧ v.read pf = some content ∧
      r = promptFromContent v pf content := by
  unfold resolveViaPromptFile at h
  cases hx : extractFrontmatterValue fm "prompt-file".toList promptKey with
  | none =>
    rw [hx] at h
    exact getDefaultPrompt_shape h
  | some pf =>
    rw [hx] at h
    dsimp only at h
    by_cases hemp : pf.isEmpty = true
    · rw [if_pos hemp] at h
      exact getDefaultPrompt_shape h
    · rw [if_neg hemp] at h
      rcases hrp : readPromptFromFile v pf with ⟨o, ns⟩
      rw [hrp] at h
      cases o with
      | some resolved =>
        obtain ⟨hex, content, hread, hres⟩ := readPromptFromFile_ok hrp
        right
        exact ⟨pf, content, hex, hread, by rw [(ok_pair_inj h).1, hres]⟩
      | none =>
        cases hgd : getDefaultPrompt st v promptKey with
        | ok pr =>
          rcases pr with ⟨r2, n2⟩
          rw [hgd] at h
          rw [(ok_pair_inj h).1]
          exact getDefaultPrompt_shape hgd
        | error e =>
          rw [hgd] at h
          exact absurd h (by simp)

theorem resolvePromptFromFile_shape {st : JournalReflectSettings} {v : Vault}
    {file promptKey : Str} {r : ResolvedPrompt} {n : List Str}
    (h : resolvePromptFromFile st v file promptKey = .ok (r, n)) :
    (∃ pv, r = ({ prompt := pv } : ResolvedPrompt) ∧ pv ≠ []) ∨
    r.prompt = DEFAULT_PROMPT ∨
    ∃ pf content, v.fileExists pf = true ∧ v.read pf = some content ∧
      r = promptFromContent v pf content := by
  simp only [resolvePromptFromFile] at h
  cases hx : extractFrontmatterValue ((v.fileCache file).bind (·.frontmatter))
      "prompt".toList promptKey with
  | none =>
    rw [hx] at h
    exact Or.inr (resolveViaPromptFile_shape h)
  | some pv =>
    rw [hx] at h
    dsimp only at h
    by_cases hemp : pv.isEmpty = true
    · rw [if_pos hemp] at h
      exact Or.inr (resolveViaPromptFile_shape h)
    · rw [if_neg hemp] at h
      left
      refine ⟨pv, (ok_pair_inj h).1, ?_⟩
      intro hnil
      rw [hnil] at hemp
      exact hemp rfl

/-- A vault whose note `n.md` points via `prompt-file` at the existing but
empty prompt file `p.md`. -/
def vaultEmptyPromptFile : Vault :=
  { fileExists := fun p => p = "p.md".toList || p = "n.md".toList
  , read := fun p =>
      if p = "p.md".toList then some []
      else if p = "n.md".toList then some "note".toList
      else none
  , fileCache := fun p =>
      if p = "n.md".toList then
        some (cacheWithFM (some [("prompt-file".toList, FMValue.str "p.md".toList)]))
      else if p = "p.md".toList then some (cacheWithFM none)
      else none
  , resolveLink := fun _ _ => none }

/-- C7 counterexample: a note whose `prompt-file` points at an existing prompt
file with empty body resolves to a `ResolvedPrompt` whose instruction text is
the EMPTY string — no fallback to the built-in default happens, refuting the
invariant. -/
theorem resolvedPrompt_empty_instruction :
    resolvePromptFromFile settingsWithPromptFile vaultEmptyPromptFile
      "n.md".toList "reflection".toList =
      .ok (promptFromContent vaultEmptyPromptFile "p.md".toList [], []) ∧
    (promptFromContent vaultEmptyPromptFile "p.md".toList []).prompt = [] :=
  ⟨rfl, rfl⟩

/-- C7 (amended): a resolved prompt's instruction text can be empty only when
it was read from an existing, readable prompt file whose body (after
frontmatter stripping) is empty; on every other path — inline frontmatter
prompt or fallback to the built-in default — the instruction is non-empty. -/
theorem resolvedPrompt_empty_only_from_empty_file (st : JournalReflectSettings)
    (v : Vault) (file promptKey : Str) (r : ResolvedPrompt) (notices : List Str)
    (hok : resolvePromptFromFile st v file promptKey = .ok (r, notices))
    (hempty : r.prompt = []) :
    ∃ pf content, v.fileExists pf = true ∧ v.read pf = some content ∧
      r.sourcePath = some pf ∧ stripFrontmatter content = [] := by
  rcases resolvePromptFromFile_shape hok with ⟨pv, hr, hne⟩ | hdef |
    ⟨pf, content, hex, hread, hr⟩
  · rw [hr] at hempty
    exact absurd hempty hne
  · exact absurd (hempty.symm.trans hdef) (by decide)
  · refine ⟨pf, content, hex, hread, ?_, ?_⟩
    · rw [hr]
      rfl
    · rw [hr] at hempty
      exact hempty

/-- Witness for C7's amended theorem at the empty-prompt-file vault. -/
theorem resolvedPrompt_empty_only_from_empty_file_witness :
    ∃ pf content, vaultEmptyPromptFile.fileExists pf = true ∧
      vaultEmptyPromptFile.read pf = some content ∧
      (promptFromContent vaultEmptyPromptFile "p.md".toList []).sourcePath = some pf ∧
      stripFrontmatter content = [] :=
  resolvedPrompt_empty_only_from_empty_file settingsWithPromptFile
    vaultEmptyPromptFile "n.md".toList "reflection".toList
    (promptFromContent vaultEmptyPromptFile "p.md".toList []) [] rfl rfl

/-! ### C6: unknown prompt key -/

/-- Settings whose prompts map is empty. -/
def settingsNoPrompts : JournalReflectSettings :=
  { ollamaUrl := "http://localhost:11434".toList
  , modelName := "llama3.1".toList
  , excludePatterns := []
  , keepAlive := "10m".toList
  , prompts := [] }

/-- A reachable, always-succeeding inference collaborator. -/
def ollamaUp : OllamaClient :=
  { connected := true
  , generate := fun _ _ _ _ => { response := some "ok".toList, context := none } }

/-- C6 counterexample: a generation request for a prompt key with no entry in
the configured prompts map makes `getDefaultPrompt` throw
`Error("Unknown prompt key: ...")`, which propagates out of
`generateContentWithEditor` (the `.error` outcome) with NO notice reported to
the user — refuting the claim that the configuration error is reported and
absorbed. -/
theorem generate_unknown_key_throws :
    lookupEntry "missing".toList settingsNoPrompts.prompts = none ∧
    generateContentWithEditor settingsNoPrompts emptyVault [] ollamaUp [] 0
      "hello".toList (some "n.md".toList) "missing".toList [] =
      (.error ("Unknown prompt key: missing".toList), [], []) :=
  ⟨rfl, rfl⟩

/-- C6 (amended): for every prompt key absent from the configured prompts map,
when the active note's metadata cache yields no frontmatter (so neither inline
tier applies), the generation entry point propagates the thrown
`Unknown prompt key` error: no notice is raised, nothing is inserted, and the
context store is untouched. -/
theorem generate_unknown_key_propagates (st : JournalReflectSettings) (v : Vault)
    (gp : List JSRegExp) (ollama : OllamaClient) (store : ContextStore) (now : Int)
    (doc : Str) (note : Str) (promptKey : Str) (cursorLine : Str)
    (hfm : (v.fileCache note).bind (·.frontmatter) = none)
    (hkey : lookupEntry promptKey st.prompts = none) :
    generateContentWithEditor st v gp ollama store now doc (some note) promptKey
      cursorLine = (.error ("Unknown prompt key: ".toList ++ promptKey), [], store) := by
  have hresolve : resolvePromptFromFile st v note promptKey =
      .error ("Unknown prompt key: ".toList ++ promptKey) := by
    simp only [resolvePromptFromFile, resolveViaPromptFile, getDefaultPrompt,
      extractFrontmatterValue, fmLookup, hfm, hkey]
    rfl
  simp only [generateContentWithEditor, hresolve]

/-- Witness for C6's amended theorem at a concrete state. -/
theorem generate_unknown_key_propagates_witness :
    generateContentWithEditor settingsNoPrompts emptyVault [] ollamaUp [] 7
      "doc".toList (some "a.md".toList) "nope".toList [] =
      (.error ("Unknown prompt key: ".toList ++ "nope".toList), [], []) :=
  generate_unknown_key_propagates settingsNoPrompts emptyVault [] ollamaUp [] 7
    "doc".toList "a.md".toList "nope".toList [] rfl rfl

/-! ### C8: continuation-entry expiry -/

theorem lookupEntry_eraseKey (k : Str) (l : ContextStore) :
    lookupEntry k (eraseKey l k) = none := by
  unfold eraseKey
  induction l with
  | nil => rfl
  | cons p rest ih =>
    by_cases hp : p.1 = k
    · simp only [List.filter_cons, hp]
      simpa using ih
    · simp only [List.filter_cons]
      rw [if_pos (by simpa using hp)]
      simpa [lookupEntry, hp] using ih

theorem lookupEntry_filter_all {β : Type} (k : Str) (v : β) (q : Str × β → Bool)
    (hq : q (k, v) = true) :
    ∀ l : List (Str × β), (∀ p ∈ l, p.1 = k → p.2 = v) →
      lookupEntry k l = some v → lookupEntry k (l.filter q) = some v := by
  intro l
  induction l with
  | nil =>
    intro _ hl
    exact absurd hl (by simp [lookupEntry])
  | cons p rest ih =>
    intro hall hl
    by_cases hp : p.1 = k
    · have hv : p.2 = v := hall p (List.mem_cons_self _ _) hp
      have hpkv : p = (k, v) := by
        rcases p with ⟨p1, p2⟩
        simp only at hp hv
        rw [hp, hv]
      rw [hpkv]
      simp only [List.filter_cons, hq, if_pos]
      simp [lookupEntry]
    · have hl' : lookupEntry k rest = some v := by
        simpa [lookupEntry, hp] using hl
      have hrec := ih (fun p2 hp2 => hall p2 (List.mem_cons_of_mem _ hp2)) hl'
      simp only [List.filter_cons]
      by_cases hqp : q p = true
      · rw [if_pos hqp]
        simpa [lookupEntry, hp] using hrec
      · rw [if_neg hqp]
        exact hrec

theorem lookupEntry_none_forall {β : Type} (k : Str) :
    ∀ l : List (Str × β), lookupEntry k l = none → ∀ p ∈ l, p.1 ≠ k := by
  intro l
  induction l with
  | nil =>
    intro _ p hp
    simp at hp
  | cons q rest ih =>
    rcases q with ⟨q1, q2⟩
    intro hnone p hp
    have hq : ¬(q1 = k) := by
      intro hqk
      rw [lookupEntry, if_pos hqk] at hnone
      exact absurd hnone (by simp)
    have hnone' : lookupEntry k rest = none := by
      rw [lookupEntry, if_neg hq] at hnone
      exact hnone
    rcases List.mem_cons.1 hp with rfl | hp2
    · exact hq
    · exact ih hnone' p hp2

theorem lookupEntry_append_new {β : Type} (k : Str) (v : β) :
    ∀ l : List (Str × β), lookupEntry k l = none →
      lookupEntry k (l ++ [(k, v)]) = some v := by
  intro l
  induction l with
  | nil => simp [lookupEntry]
  | cons q rest ih =>
    rcases q with ⟨q1, q2⟩
    intro hnone
    have hq : ¬(q1 = k) := by
      intro hqk
      rw [lookupEntry, if_pos hqk] at hnone
      exact absurd hnone (by simp)
    have hnone' : lookupEntry k rest = none := by
      rw [lookupEntry, if_neg hq] at hnone
      exact hnone
    rw [List.cons_append, lookupEntry, if_neg hq]
    exact ih hnone'

theorem lookupEntry_setKey (k : Str) (v : ContextEntry) (l : ContextStore) :
    lookupEntry k (setKey l k v) = some v ∧
    (∀ p ∈ setKey l k v, p.1 = k → p.2 = v) := by
  unfold setKey
  by_cases hs : (lookupEntry k l).isSome = true
  · rw [if_pos hs]
    constructor
    · induction l with
      | nil => simp [lookupEntry] at hs
      | cons p rest ih =>
        rcases p with ⟨p1, p2⟩
        by_cases hp : p1 = k
        · simp only [List.map_cons, if_pos hp]
          simp [lookupEntry]
        · have hs' : (lookupEntry k rest).isSome = true := by
            rw [lookupEntry, if_neg hp] at hs
            exact hs
          simp only [List.map_cons, if_neg hp]
          rw [lookupEntry, if_neg hp]
          exact ih hs'
    · intro p hp hpk
      obtain ⟨p0, hp0, hmap⟩ := List.mem_map.1 hp
      by_cases h0 : p0.1 = k
      · rw [if_pos h0] at hmap
        rw [← hmap]
      · rw [if_neg h0] at hmap
        rw [← hmap] at hpk
        exact absurd hpk h0
  · rw [if_neg hs]
    have hnone : lookupEntry k l = none := by
      cases hx : lookupEntry k l with
      | none => rfl
      | some w =>
        rw [hx] at hs
        simp at hs
    constructor
    · exact lookupEntry_append_new k v l hnone
    · intro p hp hpk
      rcases List.mem_append.1 hp with hmem | hmem
      · exact absurd hpk (lookupEntry_none_forall k l hnone p hmem)
      · simp only [List.mem_singleton] at hmem
        rw [hmem]

/-- C8: keys built for continuation contexts are non-empty, and for every such
key an entry stored at time T and queried at time T + 31 minutes (the TTL
being fixed at 30 minutes) is reported absent by the lookup, which also
deletes the expired entry from the store. -/
theorem contextStore_ttl_expiry :
    CONTEXT_TTL_MS = 30 * 60 * 1000 ∧
    (∀ (filePath : Str) (rp : ResolvedPrompt) (promptKey k : Str),
      buildContextKey filePath rp promptKey = some k → k ≠ []) ∧
    (∀ (store : ContextStore) (key : Str) (ctx : List Int) (T : Int),
      key ≠ [] → ctx ≠ [] →
      (getContextForKey (storeContextForKey store key ctx T) (some key)
        (T + 31 * 60 * 1000)).1 = none ∧
      lookupEntry key
        (getContextForKey (storeContextForKey store key ctx T) (some key)
          (T + 31 * 60 * 1000)).2 = none) := by
  refine ⟨rfl, ?_, ?_⟩
  · intro filePath rp promptKey k h
    unfold buildContextKey at h
    by_cases hc : rp.isContinuous = some true
    · rw [if_pos hc] at h
      have hk := Option.some.inj h
      intro hnil
      rw [← hk] at hnil
      simp at hnil
    · rw [if_neg hc] at h
      exact absurd h (by simp)
  · intro store key ctx T hkey hctx
    have hkie : key.isEmpty = false := by
      cases key with
      | nil => exact absurd rfl hkey
      | cons a l => rfl
    have hcie : ctx.isEmpty = false := by
      cases ctx with
      | nil => exact absurd rfl hctx
      | cons a l => rfl
    have hstore : storeContextForKey store key ctx T =
        cullExpiredContexts (setKey store key ⟨ctx, T⟩) T := by
      unfold storeContextForKey
      rw [hcie]
      simp
    have hset := lookupEntry_setKey key ⟨ctx, T⟩ store
    have hlook : lookupEntry key (storeContextForKey store key ctx T) =
        some ⟨ctx, T⟩ := by
      rw [hstore]
      unfold cullExpiredContexts
      refine lookupEntry_filter_all key ⟨ctx, T⟩ _ ?_ _ hset.2 hset.1
      show decide (¬(T - T > CONTEXT_TTL_MS)) = true
      simp [CONTEXT_TTL_MS]
    have hexp : T + 31 * 60 * 1000 - T > CONTEXT_TTL_MS := by
      unfold CONTEXT_TTL_MS
      omega
    have hget : getContextForKey (storeContextForKey store key ctx T) (some key)
        (T + 31 * 60 * 1000) =
        (none, eraseKey (storeContextForKey store key ctx T) key) := by
      unfold getContextForKey
      dsimp only
      rw [if_neg (show ¬(key.isEmpty = true) by simp [hkie])]
      rw [hlook]
      dsimp only
      rw [if_pos hexp]
    constructor
    · rw [hget]
    · rw [hget]
      exact lookupEntry_eraseKey key _

/-- Witness for C8 at a concrete key, store and time. -/
theorem contextStore_ttl_expiry_witness :
    (getContextForKey (storeContextForKey [] "a.md::p.md".toList [3, 4] 0)
      (some "a.md::p.md".toList) (0 + 31 * 60 * 1000)).1 = none ∧
    lookupEntry "a.md::p.md".toList
      (getContextForKey (storeContextForKey [] "a.md::p.md".toList [3, 4] 0)
        (some "a.md::p.md".toList) (0 + 31 * 60 * 1000)).2 = none :=
  contextStore_ttl_expiry.2.2 [] "a.md::p.md".toList [3, 4] 0 (by decide) (by decide)
